import Mathlib

/-!
Verification of the paragraph segmentation / reinjection engine of a
DOCX translation tool.  The engine (source file `xml-utils`) scans raw
XML text with two regular expressions,

  PARAGRAPH_REGEX    = <w:p\b[^>]*>(.*?)</w:p>     (flags g, s)
  TEXT_ELEMENT_REGEX = <w:t(\s[^>]*)?>([^<]*)</w:t> (flag g)

extracts the concatenated run text of every paragraph, and reinjects
translated text keyed by that concatenation.  Strings are modelled as
`List Char`; the JavaScript regex scans are modelled by explicit
character-level scanners that reproduce the leftmost-match /
advance-by-one behaviour of the patterns above.
-/

namespace TranslateDocx

/-- JavaScript word character (regex `\w` / `\b` boundary test): ASCII
letters, digits, underscore. -/
def isWordChar (c : Char) : Bool :=
  (('a' ≤ c && c ≤ 'z') || ('A' ≤ c && c ≤ 'Z') || ('0' ≤ c && c ≤ '9') || c = '_')

/-- JavaScript whitespace (regex `\s`, also the character class used by
`String.prototype.trim`). -/
def isJsSpace (c : Char) : Bool :=
  (c = ' ' || c = '\t' || c = '\n' || c = '\x0d' || c = '\x0b' || c = '\x0c' ||
   c = '\xa0' || c = ' ' || (' ' ≤ c && c ≤ ' ') ||
   c = ' ' || c = ' ' || c = ' ' || c = ' ' ||
   c = '　' || c = '﻿')

/-- JavaScript `String.prototype.trim` on character lists. -/
def jsTrim (l : List Char) : List Char :=
  ((l.dropWhile isJsSpace).reverse.dropWhile isJsSpace).reverse

/-- Concatenation `texts.join('')`: concatenation of a list of strings with no separator. -/
def joinL (ls : List (List Char)) : List Char := ls.flatten

/-- Concat-map over characters (used to reason about the escaping helpers). -/
def cmap (f : Char → List Char) (l : List Char) : List Char := (l.map f).flatten

/-- The literal `<w:t`. -/
def openT : List Char := ['<', 'w', ':', 't']

/-- The literal `</w:t>`. -/
def closeT : List Char := ['<', '/', 'w', ':', 't', '>']

/-- The literal `<w:p`. -/
def openP : List Char := ['<', 'w', ':', 'p']

/-- The literal `</w:p>`. -/
def closeP : List Char := ['<', '/', 'w', ':', 'p', '>']

/-- First occurrence of `pat` in `s`: returns the part before the match and
the part after it (so `s = before ++ pat ++ after`).  Models the non-greedy
search for a literal terminator such as `</w:p>`. -/
def splitFirst (pat : List Char) : List Char → Option (List Char × List Char)
  | [] => if pat = [] then some ([], []) else none
  | c :: rest =>
    if pat.isPrefixOf (c :: rest) then some ([], (c :: rest).drop pat.length)
    else
      match splitFirst pat rest with
      | some (pre, post) => some (c :: pre, post)
      | none => none

/-!  ## The text-run pattern  `<w:t(\s[^>]*)?>([^<]*)</w:t>`

`matchTextAt s` attempts to match the pattern at the very start of `s`,
returning `(attrs, innerText, rest)` on success.  The JavaScript engine
backtracks deterministically here: the attribute group, when present,
runs to the first `>`; the inner text runs to the first `<`, which must
begin the literal `</w:t>`. -/

/-- Final phase of a text-run match: after the `>` of the opening tag,
take the inner text (`[^<]*`) and require the literal `</w:t>`. -/
def finishT (a rest : List Char) : Option (List Char × List Char × List Char) :=
  let i := rest.takeWhile (· != '<')
  let after := rest.dropWhile (· != '<')
  if closeT.isPrefixOf after then some (a, i, after.drop 6) else none

/-- Match `TEXT_ELEMENT_REGEX` anchored at the start of `s`. -/
def matchTextAt (s : List Char) : Option (List Char × List Char × List Char) :=
  if openT.isPrefixOf s then
    match s.drop 4 with
    | [] => none
    | c :: r =>
      if c = '>' then finishT [] r
      else if isJsSpace c then
        match (c :: r).dropWhile (· != '>') with
        | [] => none
        | _ :: afterGt => finishT ((c :: r).takeWhile (· != '>')) afterGt
      else none
  else none

/-- A piece of paragraph content as seen by the text-run scan: either
unmatched raw characters or one matched `<w:t>` element
(attributes of the opening tag, inner text). -/
inductive TPiece where
  | raw : List Char → TPiece
  | run : List Char → List Char → TPiece
deriving DecidableEq, Repr

/-- Reassemble pieces into the exact text they were matched from. -/
def flattenT : List TPiece → List Char
  | [] => []
  | TPiece.raw g :: ps => g ++ flattenT ps
  | TPiece.run a i :: ps => openT ++ a ++ '>' :: (i ++ (closeT ++ flattenT ps))

/-- Prepend reversed accumulated raw characters to a piece list, merging
with a leading raw piece. -/
def consRawT (r : List Char) (l : List TPiece) : List TPiece :=
  if r = [] then l
  else
    match l with
    | TPiece.raw g :: ps => TPiece.raw (r ++ g) :: ps
    | _ => TPiece.raw r :: l

/-- Fuel-driven global scan of `TEXT_ELEMENT_REGEX` over a string,
reproducing the leftmost-match / advance-by-one strategy of the
JavaScript engine; `acc` holds (reversed) characters not part of any
match so far. -/
def textSplitF : Nat → List Char → List Char → List TPiece
  | 0, acc, s => if acc = [] ∧ s = [] then [] else [TPiece.raw (acc.reverse ++ s)]
  | _ + 1, acc, [] => if acc = [] then [] else [TPiece.raw acc.reverse]
  | n + 1, acc, c :: rest =>
    match matchTextAt (c :: rest) with
    | some (a, i, r) =>
      (if acc = [] then [] else [TPiece.raw acc.reverse]) ++
        TPiece.run a i :: textSplitF n [] r
    | none => textSplitF n (c :: acc) rest

/-- The decomposition of a paragraph's content into text-run matches and
the raw text between them. -/
def textSplit (s : List Char) : List TPiece := textSplitF s.length [] s

/-- Text-run pairs (attributes, inner text) of a content string, in order. -/
def runsOf (s : List Char) : List (List Char × List Char) :=
  (textSplit s).filterMap fun p =>
    match p with
    | TPiece.run a i => some (a, i)
    | TPiece.raw _ => none

/-- The extractor's inner loop (source lines 30–40): repeatedly `exec`
`TEXT_ELEMENT_REGEX` and push capture group 2. -/
def collectTextsFE : Nat → List Char → List (List Char)
  | 0, _ => []
  | _ + 1, [] => []
  | n + 1, c :: rest =>
    match matchTextAt (c :: rest) with
    | some (_, i, r) => i :: collectTextsFE n r
    | none => collectTextsFE n rest

/-- All inner texts of a paragraph's content, as collected by the
extractor. -/
def collectTextsE (s : List Char) : List (List Char) := collectTextsFE s.length s

/-- The injector's key-recomputation loop (source lines 73–82): the same
`exec` loop, written a second time in the source. -/
def collectTextsFI : Nat → List Char → List (List Char)
  | 0, _ => []
  | _ + 1, [] => []
  | n + 1, c :: rest =>
    match matchTextAt (c :: rest) with
    | some (_, i, r) => i :: collectTextsFI n r
    | none => collectTextsFI n rest

/-- All inner texts of a paragraph's content, as recomputed by the
injector to build its lookup key. -/
def collectTextsI (s : List Char) : List (List Char) := collectTextsFI s.length s

/-!  ## The paragraph pattern  `<w:p\b[^>]*>(.*?)</w:p>`  (flags g, s) -/

/-- Match `PARAGRAPH_REGEX` anchored at the start of `s`: `<w:p`, a word
boundary, attributes up to the first `>`, then non-greedy content up to
the first `</w:p>`.  Returns `(openTag, content, rest)`. -/
def matchParaAt (s : List Char) : Option (List Char × List Char × List Char) :=
  if openP.isPrefixOf s then
    match s.drop 4 with
    | [] => none
    | c :: r =>
      if isWordChar c then none
      else
        match (c :: r).dropWhile (· != '>') with
        | [] => none
        | _ :: afterGt =>
          match splitFirst closeP afterGt with
          | none => none
          | some (content, rest) =>
            some (openP ++ (c :: r).takeWhile (· != '>') ++ ['>'], content, rest)
  else none

/-- A piece of a document part as seen by the paragraph scan: raw text
between matches, or one matched paragraph (opening tag, content). -/
inductive Piece where
  | raw : List Char → Piece
  | para : List Char → List Char → Piece
deriving DecidableEq, Repr

/-- Reassemble paragraph pieces into the exact matched text. -/
def flattenP : List Piece → List Char
  | [] => []
  | Piece.raw g :: ps => g ++ flattenP ps
  | Piece.para o c :: ps => o ++ (c ++ (closeP ++ flattenP ps))

/-- Fuel-driven global scan of `PARAGRAPH_REGEX` over a document part. -/
def paraSplitF : Nat → List Char → List Char → List Piece
  | 0, acc, s => if acc = [] ∧ s = [] then [] else [Piece.raw (acc.reverse ++ s)]
  | _ + 1, acc, [] => if acc = [] then [] else [Piece.raw acc.reverse]
  | n + 1, acc, c :: rest =>
    match matchParaAt (c :: rest) with
    | some (o, content, r) =>
      (if acc = [] then [] else [Piece.raw acc.reverse]) ++
        Piece.para o content :: paraSplitF n [] r
    | none => paraSplitF n (c :: acc) rest

/-- The decomposition of a document part into paragraph matches and the
raw text between them. -/
def paraSplit (s : List Char) : List Piece := paraSplitF s.length [] s

/-!  ## Segment extraction (`extractParagraphSegments`) -/

/-- One translation unit (source `types.ts`). -/
structure ParagraphSegment where
  id : String
  text : String
  translation : Option String := none
  source : String
  runCount : Nat
deriving DecidableEq, Repr

/-- The body of the extractor's `while` loop over paragraph matches:
concatenate the run texts, skip the paragraph when the trimmed result is
empty (consuming no identifier), otherwise emit `p<id>` and increment. -/
def extractLoop (src : String) : List Piece → Nat → List ParagraphSegment × Nat
  | [], n => ([], n)
  | Piece.raw _ :: ps, n => extractLoop src ps n
  | Piece.para _ c :: ps, n =>
    let texts := collectTextsE c
    let combined := joinL texts
    if (jsTrim combined).length = 0 then extractLoop src ps n
    else
      let rec' := extractLoop src ps (n + 1)
      (⟨"p" ++ toString n, ⟨combined⟩, none, src, texts.length⟩ :: rec'.1, rec'.2)

/-- The source function `extractParagraphSegments(xml, source, startId)`:
all paragraph segments of one XML document part plus the updated
identifier counter. -/
def extractParagraphSegments (xml source : String) (startId : Nat := 0) :
    List ParagraphSegment × Nat :=
  extractLoop source (paraSplit xml.data) startId

/-!  ## Escaping helpers (`escapeXml`, `unescapeXml`)

JavaScript `text.replace(pat, rep)` with a global literal pattern:
left-to-right, non-overlapping replacement of every occurrence. -/

/-- Fuel-driven global replace of the literal `pat` by `rep`. -/
def replaceAllF (pat rep : List Char) : Nat → List Char → List Char
  | _, [] => []
  | 0, s => s
  | n + 1, c :: rest =>
    if pat.isPrefixOf (c :: rest) then rep ++ replaceAllF pat rep n (rest.drop (pat.length - 1))
    else c :: replaceAllF pat rep n rest

/-- Global replace of the literal `pat` by `rep` (JavaScript
`String.prototype.replace` with a `g`-flagged literal pattern). -/
def replaceAllL (pat rep s : List Char) : List Char := replaceAllF pat rep s.length s

/-- The body of `escapeXml` on character lists: the source's five chained
replacements, in source order (`&` first). -/
def escL (s : List Char) : List Char :=
  replaceAllL ['\''] "&apos;".data
    (replaceAllL ['"'] "&quot;".data
      (replaceAllL ['>'] "&gt;".data
        (replaceAllL ['<'] "&lt;".data
          (replaceAllL ['&'] "&amp;".data s))))

/-- The source function `escapeXml`. -/
def escapeXml (text : String) : String := ⟨escL text.data⟩

/-- The body of `unescapeXml` on character lists: the source's five chained
replacements, in source order (`&amp;` first). -/
def unescL (s : List Char) : List Char :=
  replaceAllL "&apos;".data ['\'']
    (replaceAllL "&quot;".data ['"']
      (replaceAllL "&gt;".data ['>']
        (replaceAllL "&lt;".data ['<']
          (replaceAllL "&amp;".data ['&'] s))))

/-- The source function `unescapeXml`. -/
def unescapeXml (text : String) : String := ⟨unescL text.data⟩

/-!  ## Text injection (`replaceParagraphText`) -/

/-- The injector's rewrite of a matched paragraph's text runs (the inner
`replace` with its `isFirst` closure): the first matched run receives
`esc` as content, every later one becomes empty; attributes and all raw
text between matches stay as they are. -/
def rewritePieces (esc : List Char) : Bool → List TPiece → List TPiece
  | _, [] => []
  | first, TPiece.raw g :: ps => TPiece.raw g :: rewritePieces esc first ps
  | true, TPiece.run a _ :: ps => TPiece.run a esc :: rewritePieces esc false ps
  | false, TPiece.run a _ :: ps => TPiece.run a [] :: rewritePieces esc false ps

/-- Match `/<w:p(\s[^>]*)?>/` (no `g` flag) anchored at the start of
`s`, returning capture group 1 (`[]` when the group is absent). -/
def matchPOpenAt (s : List Char) : Option (List Char) :=
  if openP.isPrefixOf s then
    match s.drop 4 with
    | [] => none
    | c :: r =>
      if c = '>' then some []
      else if isJsSpace c then
        match (c :: r).dropWhile (· != '>') with
        | [] => none
        | _ :: _ => some ((c :: r).takeWhile (· != '>'))
      else none
  else none

/-- First-match search for `/<w:p(\s[^>]*)?>/` over a full paragraph
match; the source uses `fullMatch.match(...)?.[1] || ''`, so no match and
an absent group both yield the empty string. -/
def pOpenGroupF : Nat → List Char → List Char
  | 0, _ => []
  | _ + 1, [] => []
  | n + 1, c :: rest =>
    match matchPOpenAt (c :: rest) with
    | some g => g
    | none => pOpenGroupF n rest

/-- Capture group used to rebuild the opening `<w:p ...>` tag. -/
def pOpenGroup (s : List Char) : List Char := pOpenGroupF s.length s

/-- The callback of the outer `replace` over `PARAGRAPH_REGEX`: recompute
the paragraph's concatenated text, look it up, and either emit the full
match verbatim or rewrite the text runs. -/
def rewritePara (translations : String → Option String) : Piece → List Char
  | Piece.raw g => g
  | Piece.para o c =>
    let texts := collectTextsI c
    let originalText := joinL texts
    match translations ⟨originalText⟩ with
    | none => o ++ c ++ closeP
    | some t =>
      let newContent := flattenT (rewritePieces (escL t.data) true (textSplit c))
      openP ++ pOpenGroup (o ++ c ++ closeP) ++ '>' :: (newContent ++ closeP)

/-- The source function `replaceParagraphText(xml, translations)`. -/
def replaceParagraphText (xml : String) (translations : String → Option String) : String :=
  ⟨((paraSplit xml.data).map (rewritePara translations)).flatten⟩

/-!  ## Package access (`getXmlContent`, from `docx-utils`)

The document package is a mapping from entry path to raw bytes; the
platform's UTF-8 decoder (`TextDecoder`) is an external collaborator and
is passed in as a function. -/

/-- The source function `getXmlContent(files, path)`: look the path up in the package and
decode the bytes, or throw `File not found in DOCX: <path>`. -/
def getXmlContent (decode : List Nat → String)
    (files : List (String × List Nat)) (path : String) : Except String String :=
  match files.lookup path with
  | none => Except.error ("File not found in DOCX: " ++ path)
  | some bytes => Except.ok (decode bytes)

/-!  ## Plain-text translation format -/

/-- Render the segment list to the plain-text form (extractor source:
``allSegments.map(seg => `[${seg.id}]\n${seg.text}\n`).join('\n')``). -/
def renderTxt (segs : List ParagraphSegment) : String :=
  String.intercalate "\n" (segs.map fun seg => "[" ++ seg.id ++ "]\n" ++ seg.text ++ "\n")

/-- JavaScript `content.split('\n')`: split at every separator, keeping
empty fields. -/
def splitSep (sep : Char) : List Char → List (List Char)
  | [] => [[]]
  | c :: rest =>
    match splitSep sep rest with
    | [] => []
    | l :: ls => if c = sep then [] :: l :: ls else (c :: l) :: ls

/-- The marker-line test `/^\[(p\d+)\]$/`: returns the captured
identifier when the whole line is `[p<digits>]`. -/
def markerId (line : List Char) : Option String :=
  match line with
  | '[' :: rest =>
    match rest with
    | 'p' :: rest2 =>
      let ds := rest2.takeWhile Char.isDigit
      let tail := rest2.dropWhile Char.isDigit
      if ds ≠ [] ∧ tail = [']'] then some ⟨'p' :: ds⟩ else none
    | _ => none
  | _ => none

/-- JavaScript `Map.prototype.set`: update an existing key in place,
otherwise append. -/
def setKV (m : List (String × String)) (k v : String) : List (String × String) :=
  if m.any (fun p => p.1 = k) then m.map (fun p => if p.1 = k then (k, v) else p)
  else m ++ [(k, v)]

/-- Save the paragraph accumulated in `parseTxtTranslations` (only when
at least one line was collected; the text is joined with newlines and
trimmed). -/
def saveCurrent (m : List (String × String)) (currentId : Option String)
    (currentText : List (List Char)) : List (String × String) :=
  match currentId with
  | none => m
  | some cid =>
    if currentText.length > 0 then
      setKV m cid ⟨jsTrim (List.intercalate ['\n'] currentText)⟩
    else m

/-- The line loop of `parseTxtTranslations`. -/
def parseTxtLoop : List (List Char) → Option String → List (List Char) →
    List (String × String) → List (String × String)
  | [], currentId, currentText, m => saveCurrent m currentId currentText
  | line :: rest, currentId, currentText, m =>
    match markerId line with
    | some newId => parseTxtLoop rest (some newId) [] (saveCurrent m currentId currentText)
    | none =>
      match currentId with
      | some _ => parseTxtLoop rest currentId (currentText ++ [line]) m
      | none => parseTxtLoop rest none currentText m

/-- The source function `parseTxtTranslations(content)`: parse the
`[pN]`-marked plain-text format into an id → translated-text mapping. -/
def parseTxtTranslations (content : String) : List (String × String) :=
  parseTxtLoop (splitSep '\n' content.data) none [] []

/-!  ## Soundness of the text-run matcher -/

/-- Attribute strings that a successful text-run match can produce:
free of `>`, and either absent or starting with a whitespace character. -/
def attrsOK (a : List Char) : Prop :=
  ('>' ∉ a) ∧ (a = [] ∨ ∃ d a2, a = d :: a2 ∧ isJsSpace d = true)

/-- What the text-run scan guarantees about its own output, piece by
piece: matched runs are well-formed, and the matcher fails at every
position inside a raw gap (given everything that follows it). -/
inductive GoodTail : List TPiece → Prop
  | nil : GoodTail []
  | run {a i : List Char} {ps : List TPiece} (hA : attrsOK a) (hi : '<' ∉ i)
      (h : GoodTail ps) : GoodTail (TPiece.run a i :: ps)
  | raw {g : List Char} {ps : List TPiece} (hne : g ≠ [])
      (hfail : ∀ g2, g2 ≠ [] → g2 <:+ g → matchTextAt (g2 ++ flattenT ps) = none)
      (hhead : ps = [] ∨ ∃ a i ps2, ps = TPiece.run a i :: ps2)
      (h : GoodTail ps) : GoodTail (TPiece.raw g :: ps)

/-!  ## The inner texts collected by the two `exec` loops -/

/-- Inner texts of the run pieces, in order. -/
def runInners : List TPiece → List (List Char)
  | [] => []
  | TPiece.raw _ :: ps => runInners ps
  | TPiece.run _ i :: ps => i :: runInners ps

/-- Two piece lists that differ only in the inner texts of their runs
(all of them free of `<`). -/
inductive SameShape : List TPiece → List TPiece → Prop
  | nil : SameShape [] []
  | raw {g : List Char} {ps qs : List TPiece} (h : SameShape ps qs) :
      SameShape (TPiece.raw g :: ps) (TPiece.raw g :: qs)
  | run {a i i' : List Char} {ps qs : List TPiece} (hi : '<' ∉ i) (hi' : '<' ∉ i')
      (h : SameShape ps qs) : SameShape (TPiece.run a i :: ps) (TPiece.run a i' :: qs)

/-- Run pieces of a piece list, as (attributes, inner text) pairs. -/
def runPairs : List TPiece → List (List Char × List Char)
  | [] => []
  | TPiece.raw _ :: ps => runPairs ps
  | TPiece.run a i :: ps => (a, i) :: runPairs ps

/-- The per-character effect of `escapeXml`. -/
def escChar (c : Char) : List Char :=
  if c = '&' then "&amp;".data
  else if c = '<' then "&lt;".data
  else if c = '>' then "&gt;".data
  else if c = '"' then "&quot;".data
  else if c = '\'' then "&apos;".data
  else [c]

/-!  ## Round-trip analysis of the escaping helpers

`unescapeXml` runs its five replacements with `&amp;` first, so a text
that already contains one of the other four entity spellings is changed
by the round trip.  For texts free of those four substrings the round
trip is the identity; the lemmas below track the composite of the ten
passes through per-character block decompositions. -/

/-- Does `pat` occur as a contiguous substring? -/
def occursSub (pat : List Char) : List Char → Bool
  | [] => pat.isEmpty
  | c :: rest => pat.isPrefixOf (c :: rest) || occursSub pat rest

/-- Per-character state after the `&amp;` pass of `unescapeXml`. -/
def escChar1 (c : Char) : List Char :=
  if c = '<' then "&lt;".data
  else if c = '>' then "&gt;".data
  else if c = '"' then "&quot;".data
  else if c = '\'' then "&apos;".data
  else [c]

/-- State after the `&lt;` pass. -/
def escChar2 (c : Char) : List Char :=
  if c = '>' then "&gt;".data
  else if c = '"' then "&quot;".data
  else if c = '\'' then "&apos;".data
  else [c]

/-- State after the `&gt;` pass. -/
def escChar3 (c : Char) : List Char :=
  if c = '"' then "&quot;".data
  else if c = '\'' then "&apos;".data
  else [c]

/-- State after the `&quot;` pass. -/
def escChar4 (c : Char) : List Char :=
  if c = '\'' then "&apos;".data
  else [c]

theorem splitFirst_sound {pat s pre post : List Char}
    (h : splitFirst pat s = some (pre, post)) : s = pre ++ pat ++ post := by
  induction s generalizing pre with
  | nil =>
    by_cases hp : pat = ([] : List Char) <;> simp [splitFirst, hp] at h
    simp [hp, h.1, h.2]
  | cons c rest ih =>
    by_cases hp : pat.isPrefixOf (c :: rest)
    · simp [splitFirst, hp] at h
      obtain ⟨h1, h2⟩ := h
      have hpre : pat <+: (c :: rest) := by
        exact (List.isPrefixOf_iff_prefix).1 hp
      obtain ⟨t, ht⟩ := hpre
      subst h1
      simp [← ht]
      have : (pat ++ t).drop pat.length = t := by simp
      rw [← ht] at h2
      rw [this] at h2
      simp [h2]
    · simp [splitFirst, hp] at h
      cases hm : splitFirst pat rest with
      | none => rw [hm] at h; simp at h
      | some pr =>
        rw [hm] at h
        obtain ⟨p1, p2⟩ := pr
        simp at h
        obtain ⟨h1, h2⟩ := h
        subst h1 h2
        simpa using ih hm

example : collectTextsE "<w:r><w:t>Hello</w:t></w:r><w:r><w:t xml:space=\"preserve\"> world</w:t></w:r>".data
    = ["Hello".data, " world".data] := by decide

example : matchTextAt "<w:tab/>x".data = none := by decide

example : matchTextAt "<w:t>a</w:t>z".data = some ([], ['a'], ['z']) := by decide

example :
    extractParagraphSegments "<w:p><w:r><w:t>Hello</w:t></w:r><w:r><w:t> world</w:t></w:r></w:p>" "word/document.xml" 0
    = ([⟨"p0", "Hello world", none, "word/document.xml", 2⟩], 1) := by decide

example :
    extractParagraphSegments "<w:p><w:t> </w:t></w:p><w:p><w:t>A</w:t></w:p>" "s" 3
    = ([⟨"p3", "A", none, "s", 1⟩], 4) := by decide

example : escapeXml "a&b<c>d\"e'f" = "a&amp;b&lt;c&gt;d&quot;e&apos;f" := by decide

example : unescapeXml "a&amp;b&lt;c&gt;d&quot;e&apos;f" = "a&b<c>d\"e'f" := by decide

example :
    replaceParagraphText "<w:p><w:r><w:t>Hello</w:t></w:r><w:r><w:t> world</w:t></w:r></w:p>"
      (fun s => if s = "Hello world" then some "Bonjour le monde" else none)
    = "<w:p><w:r><w:t>Bonjour le monde</w:t></w:r><w:r><w:t></w:t></w:r></w:p>" := by decide

example :
    replaceParagraphText "a<w:p><w:t>X</w:t></w:p>b" (fun _ => none)
    = "a<w:p><w:t>X</w:t></w:p>b" := by decide

example :
    parseTxtTranslations "[p0]\nHello\n\n[p1]\nWorld line 1\nWorld line 2\n"
    = [("p0", "Hello"), ("p1", "World line 1\nWorld line 2")] := by decide

/-!  ## Generic helper lemmas -/

theorem isPrefixOf_append_of_le {p x : List Char} (z : List Char)
    (h : p.length ≤ x.length) : p.isPrefixOf (x ++ z) = p.isPrefixOf x := by
  induction p generalizing x with
  | nil => simp [List.isPrefixOf]
  | cons a p ih =>
    cases x with
    | nil => simp at h
    | cons b x =>
      simp only [List.cons_append, List.isPrefixOf, List.append_eq]
      rw [ih (by simpa using h)]

theorem isPrefixOf_head_ne {a b : Char} {p u : List Char} (h : a ≠ b) :
    (a :: p).isPrefixOf (b :: u) = false := by
  simp [List.isPrefixOf, h]

theorem isPrefixOf_append_self (p z : List Char) : p.isPrefixOf (p ++ z) = true := by
  exact List.isPrefixOf_iff_prefix.2 ⟨z, rfl⟩

theorem isPrefixOf_mismatch {pre : List Char} {a b : Char} (p e X : List Char)
    (h : a ≠ b) : (pre ++ a :: p).isPrefixOf ((pre ++ b :: e) ++ X) = false := by
  induction pre with
  | nil => simpa using isPrefixOf_head_ne h
  | cons c pre ih =>
    simp only [List.cons_append, List.isPrefixOf, List.append_eq]
    simpa [List.append_assoc] using ih

theorem takeWhile_append_all {f : Char → Bool} {x : List Char} (y : List Char)
    (h : ∀ c ∈ x, f c = true) :
    (x ++ y).takeWhile f = x ++ y.takeWhile f := by
  induction x with
  | nil => simp
  | cons c x ih =>
    have hc := h c (by simp)
    simp only [List.cons_append, List.takeWhile_cons, hc]
    simp [ih fun d hd => h d (by simp [hd])]

theorem dropWhile_append_all {f : Char → Bool} {x : List Char} (y : List Char)
    (h : ∀ c ∈ x, f c = true) :
    (x ++ y).dropWhile f = y.dropWhile f := by
  induction x with
  | nil => simp
  | cons c x ih =>
    have hc := h c (by simp)
    simp only [List.cons_append, List.dropWhile_cons, hc]
    simp [ih fun d hd => h d (by simp [hd])]

theorem takeWhile_append_stop {f : Char → Bool} {c : Char} {x : List Char} (y : List Char)
    (hx : ∀ d ∈ x, f d = true) (hc : f c = false) :
    ((x ++ c :: y).takeWhile f = x) ∧ ((x ++ c :: y).dropWhile f = c :: y) := by
  constructor
  · rw [takeWhile_append_all (c :: y) hx]
    simp [List.takeWhile_cons, hc]
  · rw [dropWhile_append_all (c :: y) hx]
    simp [List.dropWhile_cons, hc]

theorem dropWhile_head_false {f : Char → Bool} {l r : List Char} {c : Char}
    (h : l.dropWhile f = c :: r) : f c = false := by
  induction l with
  | nil => simp at h
  | cons a l ih =>
    by_cases ha : f a
    · simp [List.dropWhile_cons, ha] at h
      exact ih h
    · simp [List.dropWhile_cons, ha] at h
      rw [← h.1]
      simpa using ha

theorem mem_takeWhile_true {f : Char → Bool} {l : List Char} {c : Char}
    (h : c ∈ l.takeWhile f) : f c = true := List.mem_takeWhile_imp h

/-- Splitting a list at the first character failing a Boolean predicate. -/
theorem takeWhile_dropWhile_eq (f : Char → Bool) (l : List Char) :
    l = l.takeWhile f ++ l.dropWhile f := (List.takeWhile_append_dropWhile f l).symm

theorem drop_append_of_le {x : List Char} (y : List Char) {n : Nat} (h : n ≤ x.length) :
    (x ++ y).drop n = x.drop n ++ y := by
  rw [List.drop_append_eq_append_drop]
  have : n - x.length = 0 := Nat.sub_eq_zero_of_le h
  rw [this, List.drop_zero]

theorem bne_all_of_not_mem {x : Char} {l : List Char} (h : x ∉ l) :
    ∀ d ∈ l, (d != x) = true := by
  intro d hd
  simp only [bne_iff_ne, ne_eq]
  rintro rfl
  exact h hd

theorem finishT_sound {a0 rest a i r : List Char}
    (h : finishT a0 rest = some (a, i, r)) :
    a = a0 ∧ rest = i ++ (closeT ++ r) ∧ ('<' ∉ i) := by
  unfold finishT at h
  by_cases hc : closeT.isPrefixOf (rest.dropWhile (· != '<'))
  · simp only [hc, if_true, Option.some.injEq, Prod.mk.injEq] at h
    obtain ⟨h1, h2, h3⟩ := h
    obtain ⟨u, hu⟩ := (List.isPrefixOf_iff_prefix).1 hc
    refine ⟨h1.symm, ?_, ?_⟩
    · have hsplit := takeWhile_dropWhile_eq (· != '<') rest
      have hdrop : (rest.dropWhile (· != '<')).drop 6 = u := by
        rw [← hu]
        have h6 := List.drop_left closeT u
        rw [show closeT.length = 6 from rfl] at h6
        exact h6
      rw [← h2, ← h3, hdrop, hu]
      exact hsplit
    · rw [← h2]
      intro hmem
      have := mem_takeWhile_true hmem
      simp at this
  · simp [hc] at h

theorem finishT_run (a0 i X : List Char) (hi : '<' ∉ i) :
    finishT a0 (i ++ (closeT ++ X)) = some (a0, i, X) := by
  have hstop := takeWhile_append_stop (f := (· != '<')) (c := '<')
    (x := i) (['/', 'w', ':', 't', '>'] ++ X) (bne_all_of_not_mem hi) (by decide)
  have hshape : i ++ (closeT ++ X) = i ++ '<' :: (['/', 'w', ':', 't', '>'] ++ X) := by
    simp [closeT]
  unfold finishT
  rw [hshape, hstop.1, hstop.2]
  have hpre : closeT.isPrefixOf ('<' :: (['/', 'w', ':', 't', '>'] ++ X)) = true := by
    have : ('<' :: (['/', 'w', ':', 't', '>'] ++ X)) = closeT ++ X := by simp [closeT]
    rw [this]
    exact isPrefixOf_append_self closeT X
  have hdrop : ('<' :: (['/', 'w', ':', 't', '>'] ++ X)).drop 6 = X := by
    have h6 : ('<' :: (['/', 'w', ':', 't', '>'] ++ X)) = closeT ++ X := by simp [closeT]
    rw [h6]
    have h7 := List.drop_left closeT X
    rw [show closeT.length = 6 from rfl] at h7
    exact h7
  simp only [hpre, if_true, hdrop]

theorem isJsSpace_ne_gt {c : Char} (h : isJsSpace c = true) : c ≠ '>' := by
  rintro rfl
  exact absurd h (by decide)

theorem drop4_of_openT (t : List Char) : (openT ++ t).drop 4 = t := by
  have h := List.drop_left openT t
  rw [show openT.length = 4 from rfl] at h
  exact h

theorem matchTextAt_sound {s a i r : List Char}
    (h : matchTextAt s = some (a, i, r)) :
    s = openT ++ (a ++ '>' :: (i ++ (closeT ++ r))) ∧ ('<' ∉ i) ∧ attrsOK a := by
  unfold matchTextAt at h
  by_cases hp : openT.isPrefixOf s
  case neg => simp [hp] at h
  simp only [hp, if_true] at h
  obtain ⟨t, ht⟩ := (List.isPrefixOf_iff_prefix).1 hp
  rw [← ht, drop4_of_openT] at h
  cases t with
  | nil => simp at h
  | cons c r0 =>
    by_cases hc : c = '>'
    · subst hc
      simp only [if_pos rfl] at h
      obtain ⟨h1, h2, h3⟩ := finishT_sound h
      refine ⟨?_, h3, ?_⟩
      · rw [← ht, h1, h2]
        simp
      · simp [attrsOK, h1]
    · by_cases hs : isJsSpace c
      · simp only [if_neg hc, if_pos hs] at h
        cases hdw : (c :: r0).dropWhile (· != '>') with
        | nil => rw [hdw] at h; simp at h
        | cons g afterGt =>
          rw [hdw] at h
          have h0 : finishT ((c :: r0).takeWhile (· != '>')) afterGt = some (a, i, r) := h
          obtain ⟨h1, h2, h3⟩ := finishT_sound h0
          subst h1
          have hg : g = '>' := by
            have := dropWhile_head_false hdw
            simpa using this
          have hsplit := takeWhile_dropWhile_eq (· != '>') (c :: r0)
          rw [hdw, hg] at hsplit
          have hmem : '>' ∉ (c :: r0).takeWhile (· != '>') := by
            intro hm
            have := mem_takeWhile_true hm
            simp at this
          refine ⟨?_, h3, hmem, ?_⟩
          · rw [← ht]
            have hgoal : openT ++ c :: r0
                = openT ++ ((c :: r0).takeWhile (· != '>') ++ '>' :: (i ++ (closeT ++ r))) := by
              conv_lhs => rw [hsplit]
              rw [h2]
            exact hgoal
          · right
            cases htw : (c :: r0).takeWhile (· != '>') with
            | nil =>
              rw [List.takeWhile_cons] at htw
              simp [bne_iff_ne, hc] at htw
            | cons d a2 =>
              refine ⟨d, a2, rfl, ?_⟩
              rw [List.takeWhile_cons] at htw
              by_cases hcgt : (c != '>') = true
              · rw [if_pos hcgt] at htw
                have hdc : d = c := by
                  injection htw with hh _
                  exact hh.symm
                rw [hdc]
                exact hs
              · rw [if_neg hcgt] at htw
                simp at htw
      · simp [if_neg hc, if_neg hs] at h

theorem matchTextAt_run {a i : List Char} (X : List Char) (hA : attrsOK a) (hi : '<' ∉ i) :
    matchTextAt (openT ++ (a ++ '>' :: (i ++ (closeT ++ X)))) = some (a, i, X) := by
  unfold matchTextAt
  rw [isPrefixOf_append_self openT (a ++ '>' :: (i ++ (closeT ++ X)))]
  simp only [if_true]
  rw [drop4_of_openT]
  obtain ⟨hgt, hhead⟩ := hA
  cases hhead with
  | inl ha =>
    subst ha
    simp only [List.nil_append, if_pos rfl]
    exact finishT_run [] i X hi
  | inr hex =>
    obtain ⟨d, a2, ha, hd⟩ := hex
    subst ha
    have hne : d ≠ '>' := isJsSpace_ne_gt hd
    simp only [List.cons_append, if_neg hne, if_pos hd]
    have hstop := takeWhile_append_stop (f := (· != '>')) (c := '>')
      (x := d :: a2) (i ++ (closeT ++ X)) (bne_all_of_not_mem hgt) (by decide)
    have hshape : d :: (a2 ++ '>' :: (i ++ (closeT ++ X)))
        = (d :: a2) ++ '>' :: (i ++ (closeT ++ X)) := by simp
    rw [hshape, hstop.1, hstop.2]
    exact finishT_run (d :: a2) i X hi

theorem matchTextAt_length {s a i r : List Char}
    (h : matchTextAt s = some (a, i, r)) : r.length + 11 ≤ s.length := by
  have hs := (matchTextAt_sound h).1
  rw [hs]
  simp [openT, closeT]
  omega

/-!  ## Properties of the text-run scan -/

theorem flattenT_textSplitF : ∀ (n : Nat) (acc s : List Char),
    flattenT (textSplitF n acc s) = acc.reverse ++ s := by
  intro n
  induction n with
  | zero =>
    intro acc s
    by_cases h : acc = [] ∧ s = []
    · simp [textSplitF, h, h.1, h.2, flattenT]
    · simp [textSplitF, h, flattenT]
  | succ n ih =>
    intro acc s
    cases s with
    | nil =>
      by_cases h : acc = []
      · simp [textSplitF, h, flattenT]
      · simp [textSplitF, h, flattenT]
    | cons c rest =>
      cases hm : matchTextAt (c :: rest) with
      | none =>
        simp only [textSplitF, hm]
        rw [ih]
        simp
      | some t =>
        obtain ⟨a, i, r⟩ := t
        have hs := (matchTextAt_sound hm).1
        simp only [textSplitF, hm]
        by_cases hacc : acc = []
        · simp only [hacc, if_pos rfl, List.nil_append, flattenT]
          rw [ih, hs]
          simp
        · simp only [hacc, if_neg hacc, List.cons_append, List.nil_append, flattenT,
            List.append_nil, List.singleton_append]
          rw [ih, hs]
          simp [flattenT]

theorem textSplit_flatten (s : List Char) : flattenT (textSplit s) = s := by
  simpa using flattenT_textSplitF s.length [] s

theorem textSplitF_irrel (n m : Nat) (s : List Char) (hn : s.length ≤ n)
    (hm : s.length ≤ m) : ∀ acc, textSplitF n acc s = textSplitF m acc s := by
  induction n generalizing m s with
  | zero =>
    intro acc
    have hs : s = [] := List.length_eq_zero.1 (Nat.le_zero.1 hn)
    subst hs
    cases m with
    | zero => rfl
    | succ m => by_cases h : acc = [] <;> simp [textSplitF, h]
  | succ n ih =>
    intro acc
    cases m with
    | zero =>
      have hs : s = [] := List.length_eq_zero.1 (Nat.le_zero.1 hm)
      subst hs
      by_cases h : acc = [] <;> simp [textSplitF, h]
    | succ m =>
      cases s with
      | nil => rfl
      | cons c rest =>
        cases hmm : matchTextAt (c :: rest) with
        | none =>
          simp only [textSplitF, hmm]
          exact ih m rest (by simp at hn; omega) (by simp at hm; omega) _
        | some t =>
          obtain ⟨a, i, r⟩ := t
          have hlen := matchTextAt_length hmm
          simp only [textSplitF, hmm]
          rw [ih m r (by simp at hn hlen; omega) (by simp at hm hlen; omega) []]

theorem consRawT_append (A B : List Char) (L : List TPiece) :
    consRawT (A ++ B) L = consRawT A (consRawT B L) := by
  by_cases hB : B = []
  · subst hB
    simp [consRawT]
  · by_cases hA : A = []
    · subst hA
      simp [consRawT]
    · have hAB : A ++ B ≠ [] := by simp [hA]
      cases L with
      | nil => simp [consRawT, hA, hB, hAB]
      | cons p ps =>
        cases p with
        | raw g => simp [consRawT, hA, hB, hAB]
        | run a i => simp [consRawT, hA, hB, hAB]

theorem textSplitF_acc (n : Nat) (acc s : List Char) (hn : s.length ≤ n) :
    textSplitF n acc s = consRawT acc.reverse (textSplit s) := by
  induction n generalizing acc s with
  | zero =>
    have hs : s = [] := List.length_eq_zero.1 (Nat.le_zero.1 hn)
    subst hs
    by_cases h : acc = []
    · simp [textSplitF, h, textSplit, consRawT]
    · have h2 : acc.reverse ≠ [] := by simpa using h
      simp [textSplitF, h, textSplit, consRawT, h2]
  | succ n ih =>
    cases s with
    | nil =>
      by_cases h : acc = []
      · simp [textSplitF, h, textSplit, consRawT]
      · have h2 : acc.reverse ≠ [] := by simpa using h
        simp [textSplitF, h, textSplit, consRawT, h2]
    | cons c rest =>
      cases hm : matchTextAt (c :: rest) with
      | some t =>
        obtain ⟨a, i, r⟩ := t
        have hlen := matchTextAt_length hm
        simp only [textSplitF, hm]
        have hr : textSplitF n [] r = textSplit r := by
          unfold textSplit
          exact textSplitF_irrel n r.length r (by simp at hn hlen; omega) (Nat.le_refl _) []
        rw [hr]
        have hts : textSplit (c :: rest) = TPiece.run a i :: textSplit r := by
          unfold textSplit
          have e1 : textSplitF (c :: rest).length [] (c :: rest)
              = TPiece.run a i :: textSplitF rest.length [] r := by
            simp [textSplitF, hm]
          rw [e1]
          congr 1
          exact textSplitF_irrel rest.length r.length r (by simp at hlen; omega)
            (Nat.le_refl _) []
        rw [hts]
        by_cases hacc : acc = []
        · simp [hacc, consRawT]
        · have h2 : acc.reverse ≠ [] := by simpa using hacc
          simp [hacc, consRawT, h2]
      | none =>
        simp only [textSplitF, hm]
        rw [ih (c :: acc) rest (by simp at hn; omega)]
        have hts : textSplit (c :: rest) = consRawT [c] (textSplit rest) := by
          unfold textSplit
          have e1 : textSplitF (c :: rest).length [] (c :: rest)
              = textSplitF rest.length [c] rest := by
            simp [textSplitF, hm]
          rw [e1, textSplitF_irrel rest.length n rest (Nat.le_refl _) (by simp at hn; omega) [c]]
          simpa using ih [c] rest (by simp at hn; omega)
        rw [hts, List.reverse_cons, consRawT_append]

theorem textSplit_some {s a i r : List Char} (h : matchTextAt s = some (a, i, r)) :
    textSplit s = TPiece.run a i :: textSplit r := by
  have hs : s ≠ [] := by
    rintro rfl
    simp [matchTextAt, openT, List.isPrefixOf] at h
  obtain ⟨c, rest, rfl⟩ : ∃ c rest, s = c :: rest := by
    cases s with
    | nil => exact absurd rfl hs
    | cons c rest => exact ⟨c, rest, rfl⟩
  have hlen := matchTextAt_length h
  unfold textSplit
  have e1 : textSplitF (c :: rest).length [] (c :: rest)
      = TPiece.run a i :: textSplitF rest.length [] r := by
    simp [textSplitF, h]
  rw [e1]
  congr 1
  exact textSplitF_irrel rest.length r.length r (by simp at hlen; omega) (Nat.le_refl _) []

theorem textSplit_none {c : Char} {rest : List Char}
    (h : matchTextAt (c :: rest) = none) :
    textSplit (c :: rest) = consRawT [c] (textSplit rest) := by
  unfold textSplit
  have e1 : textSplitF (c :: rest).length [] (c :: rest)
      = textSplitF rest.length [c] rest := by
    simp [textSplitF, h]
  rw [e1]
  simpa using textSplitF_acc rest.length [c] rest (Nat.le_refl _)

theorem suffix_singleton {g2 : List Char} {c : Char} (hne : g2 ≠ [])
    (h : g2 <:+ [c]) : g2 = [c] := by
  rcases List.suffix_cons_iff.1 h with h1 | h1
  · exact h1
  · exact absurd (List.suffix_nil.1 h1) hne

theorem textSplit_good : ∀ (n : Nat) (s : List Char), s.length ≤ n → GoodTail (textSplit s) := by
  intro n
  induction n with
  | zero =>
    intro s hn
    have hs : s = [] := List.length_eq_zero.1 (Nat.le_zero.1 hn)
    subst hs
    exact GoodTail.nil
  | succ n ih =>
    intro s hn
    cases s with
    | nil => exact GoodTail.nil
    | cons c rest =>
      cases hm : matchTextAt (c :: rest) with
      | some t =>
        obtain ⟨a, i, r⟩ := t
        have hlen := matchTextAt_length hm
        rw [textSplit_some hm]
        obtain ⟨_, hi, hA⟩ := matchTextAt_sound hm
        exact GoodTail.run hA hi (ih r (by simp at hn hlen; omega))
      | none =>
        rw [textSplit_none hm]
        have hrest := ih rest (by simp at hn; omega)
        have hflat : flattenT (textSplit rest) = rest := textSplit_flatten rest
        cases hts : textSplit rest with
        | nil =>
          have hr : rest = [] := by rw [← hflat, hts]; rfl
          subst hr
          have : consRawT [c] ([] : List TPiece) = [TPiece.raw [c]] := by simp [consRawT]
          rw [this]
          refine GoodTail.raw (by simp) ?_ (Or.inl rfl) GoodTail.nil
          intro g2 h2 hsuf
          rw [suffix_singleton h2 hsuf]
          simpa [flattenT] using hm
        | cons p ps =>
          rw [hts] at hrest
          cases p with
          | raw g =>
            have : consRawT [c] (TPiece.raw g :: ps) = TPiece.raw (c :: g) :: ps := by
              simp [consRawT]
            rw [this]
            cases hrest with
            | raw hne hfail hhead h =>
              refine GoodTail.raw (by simp) ?_ hhead h
              intro g2 h2 hsuf
              rcases List.suffix_cons_iff.1 hsuf with h1 | h1
              · subst h1
                have : c :: (g ++ flattenT ps) = c :: rest := by
                  rw [← hflat, hts]
                  rfl
                simpa [this] using hm
              · exact hfail g2 h2 h1
          | run a i =>
            have : consRawT [c] (TPiece.run a i :: ps) = TPiece.raw [c] :: TPiece.run a i :: ps := by
              simp [consRawT]
            rw [this]
            refine GoodTail.raw (by simp) ?_ (Or.inr ⟨a, i, ps, rfl⟩) hrest
            intro g2 h2 hsuf
            rw [suffix_singleton h2 hsuf]
            have : c :: flattenT (TPiece.run a i :: ps) = c :: rest := by
              rw [← hflat, hts]
            simpa [this] using hm

theorem textSplit_goodTail (s : List Char) : GoodTail (textSplit s) :=
  textSplit_good s.length s (Nat.le_refl _)

theorem runInners_consRawT (r : List Char) (L : List TPiece) :
    runInners (consRawT r L) = runInners L := by
  by_cases hr : r = []
  · simp [consRawT, hr]
  · cases L with
    | nil => simp [consRawT, hr, runInners]
    | cons p ps =>
      cases p with
      | raw g => simp [consRawT, hr, runInners]
      | run a i => simp [consRawT, hr, runInners]

theorem collectTextsFE_eq (n : Nat) (s : List Char) (hn : s.length ≤ n) :
    collectTextsFE n s = runInners (textSplit s) := by
  induction n generalizing s with
  | zero =>
    have hs : s = [] := List.length_eq_zero.1 (Nat.le_zero.1 hn)
    subst hs
    rfl
  | succ n ih =>
    cases s with
    | nil => rfl
    | cons c rest =>
      cases hm : matchTextAt (c :: rest) with
      | some t =>
        obtain ⟨a, i, r⟩ := t
        have hlen := matchTextAt_length hm
        simp only [collectTextsFE, hm]
        rw [textSplit_some hm, runInners, ih r (by simp at hn hlen; omega)]
      | none =>
        simp only [collectTextsFE, hm]
        rw [textSplit_none hm, runInners_consRawT, ih rest (by simp at hn; omega)]

theorem collectTextsE_eq (s : List Char) : collectTextsE s = runInners (textSplit s) :=
  collectTextsFE_eq s.length s (Nat.le_refl _)

theorem collectTextsF_E_eq_I : ∀ (n : Nat) (s : List Char),
    collectTextsFE n s = collectTextsFI n s := by
  intro n
  induction n with
  | zero => intro s; rfl
  | succ n ih =>
    intro s
    cases s with
    | nil => rfl
    | cons c rest =>
      cases hm : matchTextAt (c :: rest) with
      | some t =>
        obtain ⟨a, i, r⟩ := t
        simp only [collectTextsFE, collectTextsFI, hm]
        rw [ih r]
      | none =>
        simp only [collectTextsFE, collectTextsFI, hm]
        exact ih rest

theorem collectTextsI_eq (s : List Char) : collectTextsI s = runInners (textSplit s) := by
  unfold collectTextsI
  rw [← collectTextsF_E_eq_I]
  exact collectTextsE_eq s

/-!  ## Stability of the text-run matcher under inner-text rewriting

A failed match attempt that starts inside a raw gap keeps failing when
the inner texts of the runs that follow are replaced by other
`<`-free texts: every decision the matcher makes is taken on characters
shared by the two strings, except in branches where the match would in
fact succeed. -/

theorem closeT_pfx_stable (w z : List Char) :
    closeT.isPrefixOf ((w ++ ['>']) ++ z) = closeT.isPrefixOf (w ++ ['>']) := by
  by_cases hlen : closeT.length ≤ (w ++ ['>']).length
  · exact isPrefixOf_append_of_le z hlen
  · have hxlen : w.length + 1 ≤ 5 := by simp [closeT] at hlen; omega
    have rhs : closeT.isPrefixOf (w ++ ['>']) = false := by
      cases hc : closeT.isPrefixOf (w ++ ['>']) with
      | false => rfl
      | true =>
        have hle := (List.isPrefixOf_iff_prefix.1 hc).length_le
        simp [closeT] at hle
        omega
    have lhs : closeT.isPrefixOf ((w ++ ['>']) ++ z) = false := by
      cases hc : closeT.isPrefixOf ((w ++ ['>']) ++ z) with
      | false => rfl
      | true =>
        obtain ⟨v, hv⟩ := List.isPrefixOf_iff_prefix.1 hc
        have h1 : ((w ++ ['>']) ++ z).take (w.length + 1) = w ++ ['>'] := by
          rw [List.take_append_of_le_length (by simp)]
          have := List.take_length (w ++ ['>'])
          simpa using this
        have h2 : ((w ++ ['>']) ++ z).take (w.length + 1) = closeT.take (w.length + 1) := by
          rw [← hv, List.take_append_of_le_length (by simp [closeT]; omega)]
        have h3 : w ++ ['>'] = closeT.take (w.length + 1) := by rw [← h1, h2]
        have hmem : '>' ∈ closeT.take (w.length + 1) := by
          rw [← h3]
          simp
        have hcase : w.length + 1 = 1 ∨ w.length + 1 = 2 ∨ w.length + 1 = 3 ∨
            w.length + 1 = 4 ∨ w.length + 1 = 5 := by omega
        rcases hcase with hc5 | hc5 | hc5 | hc5 | hc5 <;> rw [hc5] at hmem <;>
          exact absurd hmem (by decide)
    rw [lhs, rhs]

theorem finishT_stable {i i' : List Char} (a a' V X X' : List Char)
    (hi : '<' ∉ i) (hi' : '<' ∉ i')
    (h : finishT a (V ++ '>' :: (i ++ (closeT ++ X))) = none) :
    finishT a' (V ++ '>' :: (i' ++ (closeT ++ X'))) = none := by
  by_cases hv : '<' ∈ V
  · have hdw : V.dropWhile (· != '<') ≠ [] := by
      intro hnil
      have hall := List.dropWhile_eq_nil_iff.1 hnil '<' hv
      simp at hall
    obtain ⟨d, V2, hd⟩ : ∃ d V2, V.dropWhile (· != '<') = d :: V2 := by
      cases hdd : V.dropWhile (· != '<') with
      | nil => exact absurd hdd hdw
      | cons d V2 => exact ⟨d, V2, rfl⟩
    have hdlt : d = '<' := by simpa using dropWhile_head_false hd
    subst hdlt
    have hVsplit : V = V.takeWhile (· != '<') ++ '<' :: V2 := by
      conv_lhs => rw [takeWhile_dropWhile_eq (· != '<') V]
      rw [hd]
    have hV1mem : ∀ x ∈ V.takeWhile (· != '<'), (x != '<') = true := by
      intro x hx
      exact mem_takeWhile_true (f := (· != '<')) hx
    have heval : ∀ (a0 u Y : List Char),
        finishT a0 (V ++ '>' :: (u ++ (closeT ++ Y)))
          = (if closeT.isPrefixOf (('<' :: V2) ++ ['>']) = true
             then some (a0, V.takeWhile (· != '<'),
                        ('<' :: (V2 ++ '>' :: (u ++ (closeT ++ Y)))).drop 6)
             else none) := by
      intro a0 u Y
      have hshape : V ++ '>' :: (u ++ (closeT ++ Y))
          = V.takeWhile (· != '<') ++ '<' :: (V2 ++ '>' :: (u ++ (closeT ++ Y))) := by
        conv_lhs => rw [hVsplit]
        simp
      rw [hshape]
      have hstop := takeWhile_append_stop (f := (· != '<')) (c := '<')
        (x := V.takeWhile (· != '<')) (V2 ++ '>' :: (u ++ (closeT ++ Y))) hV1mem (by decide)
      unfold finishT
      rw [hstop.1, hstop.2]
      have hcond : closeT.isPrefixOf ('<' :: (V2 ++ '>' :: (u ++ (closeT ++ Y))))
          = closeT.isPrefixOf (('<' :: V2) ++ ['>']) := by
        have hre : '<' :: (V2 ++ '>' :: (u ++ (closeT ++ Y)))
            = (('<' :: V2) ++ ['>']) ++ (u ++ (closeT ++ Y)) := by simp
        rw [hre]
        exact closeT_pfx_stable ('<' :: V2) (u ++ (closeT ++ Y))
      simp only [hcond]
    rw [heval a i X] at h
    rw [heval a' i' X']
    by_cases hc : closeT.isPrefixOf (('<' :: V2) ++ ['>']) = true
    · rw [if_pos hc] at h
      simp at h
    · rw [if_neg hc]
  · have hmem : '<' ∉ (V ++ '>' :: i) := by
      intro hm
      rcases List.mem_append.1 hm with hm | hm
      · exact hv hm
      · rcases List.mem_cons.1 hm with hm | hm
        · simp at hm
        · exact hi hm
    have hrun := finishT_run a (V ++ '>' :: i) X hmem
    rw [show (V ++ '>' :: i) ++ (closeT ++ X) = V ++ '>' :: (i ++ (closeT ++ X)) by simp] at hrun
    rw [hrun] at h
    simp at h

theorem matchTextAt_stable {i i' : List Char} (W X X' : List Char) (hW : 4 ≤ W.length)
    (hi : '<' ∉ i) (hi' : '<' ∉ i')
    (h : matchTextAt (W ++ '>' :: (i ++ (closeT ++ X))) = none) :
    matchTextAt (W ++ '>' :: (i' ++ (closeT ++ X'))) = none := by
  have hpre : ∀ (y : List Char), openT.isPrefixOf (W ++ y) = openT.isPrefixOf W :=
    fun y => isPrefixOf_append_of_le y (by simpa [openT] using hW)
  have hdrop : ∀ (y : List Char), (W ++ y).drop 4 = W.drop 4 ++ y :=
    fun y => drop_append_of_le y hW
  unfold matchTextAt at h ⊢
  rw [hpre, hdrop] at h ⊢
  by_cases hp : openT.isPrefixOf W
  case neg => simp [hp]
  simp only [hp, if_true] at h ⊢
  cases hW4 : W.drop 4 with
  | nil =>
    rw [hW4] at h
    simp only [List.nil_append, if_true] at h
    rw [finishT_run [] i X hi] at h
    simp at h
  | cons c W5 =>
    rw [hW4] at h
    simp only [List.cons_append] at h ⊢
    by_cases hc : c = '>'
    · rw [if_pos hc] at h ⊢
      exact finishT_stable [] [] W5 X X' hi hi' h
    · rw [if_neg hc] at h ⊢
      by_cases hs : isJsSpace c
      case neg => simp [hs]
      simp only [hs, if_true] at h ⊢
      by_cases hg : '>' ∈ c :: W5
      · have hdwne : (c :: W5).dropWhile (· != '>') ≠ [] := by
          intro hnil
          have hall := List.dropWhile_eq_nil_iff.1 hnil '>' hg
          simp at hall
        obtain ⟨e, Q, he⟩ : ∃ e Q, (c :: W5).dropWhile (· != '>') = e :: Q := by
          cases hdd : (c :: W5).dropWhile (· != '>') with
          | nil => exact absurd hdd hdwne
          | cons e Q => exact ⟨e, Q, rfl⟩
        have hegt : e = '>' := by simpa using dropWhile_head_false he
        subst hegt
        have hQsplit : c :: W5 = (c :: W5).takeWhile (· != '>') ++ '>' :: Q := by
          conv_lhs => rw [takeWhile_dropWhile_eq (· != '>') (c :: W5)]
          rw [he]
        have hPmem : ∀ x ∈ (c :: W5).takeWhile (· != '>'), (x != '>') = true := by
          intro x hx
          exact mem_takeWhile_true (f := (· != '>')) hx
        have hstop : ∀ (u Y : List Char),
            ((c :: W5) ++ '>' :: (u ++ (closeT ++ Y))).takeWhile (· != '>')
                = (c :: W5).takeWhile (· != '>')
              ∧ ((c :: W5) ++ '>' :: (u ++ (closeT ++ Y))).dropWhile (· != '>')
                = '>' :: (Q ++ '>' :: (u ++ (closeT ++ Y))) := by
          intro u Y
          have hshape : (c :: W5) ++ '>' :: (u ++ (closeT ++ Y))
              = (c :: W5).takeWhile (· != '>') ++ '>' :: (Q ++ '>' :: (u ++ (closeT ++ Y))) := by
            conv_lhs => rw [hQsplit]
            simp
          have hst := takeWhile_append_stop (f := (· != '>')) (c := '>')
            (x := (c :: W5).takeWhile (· != '>')) (Q ++ '>' :: (u ++ (closeT ++ Y)))
            hPmem (by decide)
          exact ⟨by rw [hshape, hst.1], by rw [hshape, hst.2]⟩
        rw [show c :: (W5 ++ '>' :: (i ++ (closeT ++ X)))
            = (c :: W5) ++ '>' :: (i ++ (closeT ++ X)) by simp] at h
        rw [show c :: (W5 ++ '>' :: (i' ++ (closeT ++ X')))
            = (c :: W5) ++ '>' :: (i' ++ (closeT ++ X')) by simp]
        rw [(hstop i X).1, (hstop i X).2] at h
        rw [(hstop i' X').1, (hstop i' X').2]
        have h2 : finishT ((c :: W5).takeWhile (· != '>'))
            (Q ++ '>' :: (i ++ (closeT ++ X))) = none := h
        exact finishT_stable _ _ Q X X' hi hi' h2
      · have hPmem : ∀ x ∈ c :: W5, (x != '>') = true := bne_all_of_not_mem hg
        have hstop1 := takeWhile_append_stop (f := (· != '>')) (c := '>')
          (x := c :: W5) (i ++ (closeT ++ X)) hPmem (by decide)
        rw [show c :: (W5 ++ '>' :: (i ++ (closeT ++ X)))
            = (c :: W5) ++ '>' :: (i ++ (closeT ++ X)) by simp] at h
        rw [hstop1.1, hstop1.2] at h
        have h2 : finishT (c :: W5) (i ++ (closeT ++ X)) = none := h
        rw [finishT_run _ i X hi] at h2
        simp at h2

theorem matchAt_gap_stable {ps qs : List TPiece} (hss : SameShape ps qs) :
    ∀ (g : List Char), matchTextAt (g ++ flattenT ps) = none →
      matchTextAt (g ++ flattenT qs) = none := by
  induction hss with
  | nil => intro g h; exact h
  | @raw g' ps qs h ih =>
    intro g hg
    have e1 : g ++ flattenT (TPiece.raw g' :: qs) = (g ++ g') ++ flattenT qs := by
      simp [flattenT]
    have e2 : g ++ flattenT (TPiece.raw g' :: ps) = (g ++ g') ++ flattenT ps := by
      simp [flattenT]
    rw [e1]
    rw [e2] at hg
    exact ih (g ++ g') hg
  | @run a i i' ps qs hi hi' h ih =>
    intro g hg
    have e1 : g ++ flattenT (TPiece.run a i' :: qs)
        = (g ++ openT ++ a) ++ '>' :: (i' ++ (closeT ++ flattenT qs)) := by
      simp [flattenT]
    have e2 : g ++ flattenT (TPiece.run a i :: ps)
        = (g ++ openT ++ a) ++ '>' :: (i ++ (closeT ++ flattenT ps)) := by
      simp [flattenT]
    rw [e1]
    rw [e2] at hg
    exact matchTextAt_stable (g ++ openT ++ a) (flattenT ps) (flattenT qs)
      (by simp [openT]; omega) hi hi' hg

theorem rewritePieces_nil (esc : List Char) (b : Bool) : rewritePieces esc b [] = [] := by
  cases b <;> rfl

theorem rewritePieces_raw (esc g : List Char) (b : Bool) (ps : List TPiece) :
    rewritePieces esc b (TPiece.raw g :: ps) = TPiece.raw g :: rewritePieces esc b ps := by
  cases b <;> rfl

theorem rewritePieces_sameShape (esc : List Char) (hesc : '<' ∉ esc) :
    ∀ (ps : List TPiece) (b : Bool), GoodTail ps → SameShape ps (rewritePieces esc b ps) := by
  intro ps
  induction ps with
  | nil =>
    intro b _
    rw [rewritePieces_nil]
    exact SameShape.nil
  | cons p ps ih =>
    intro b hg
    cases p with
    | raw g =>
      cases hg with
      | raw hne hfail hhead h =>
        rw [rewritePieces_raw]
        exact SameShape.raw (ih b h)
    | run a i =>
      cases hg with
      | run hA hi h =>
        cases b with
        | true => exact SameShape.run hi hesc (ih false h)
        | false => exact SameShape.run hi (by simp) (ih false h)

theorem rewritePieces_goodTail (esc : List Char) (hesc : '<' ∉ esc) :
    ∀ (ps : List TPiece) (b : Bool), GoodTail ps → GoodTail (rewritePieces esc b ps) := by
  intro ps
  induction ps with
  | nil =>
    intro b _
    rw [rewritePieces_nil]
    exact GoodTail.nil
  | cons p ps ih =>
    intro b hg
    cases p with
    | raw g =>
      cases hg with
      | raw hne hfail hhead h =>
        rw [rewritePieces_raw]
        refine GoodTail.raw hne ?_ ?_ (ih b h)
        · intro g2 h2 hsuf
          exact matchAt_gap_stable (rewritePieces_sameShape esc hesc ps b h) g2
            (hfail g2 h2 hsuf)
        · rcases hhead with hh | ⟨a, i, ps2, hh⟩
          · subst hh
            exact Or.inl (rewritePieces_nil esc b)
          · subst hh
            cases b with
            | true => exact Or.inr ⟨a, esc, rewritePieces esc false ps2, rfl⟩
            | false => exact Or.inr ⟨a, [], rewritePieces esc false ps2, rfl⟩
    | run a i =>
      cases hg with
      | run hA hi h =>
        cases b with
        | true => exact GoodTail.run hA hesc (ih false h)
        | false => exact GoodTail.run hA (by simp) (ih false h)

theorem textSplit_gap (g : List Char) :
    ∀ (X : List Char), (∀ g2, g2 ≠ [] → g2 <:+ g → matchTextAt (g2 ++ X) = none) →
      textSplit (g ++ X) = consRawT g (textSplit X) := by
  induction g with
  | nil =>
    intro X _
    simp [consRawT]
  | cons c g' ih =>
    intro X hfail
    have hm : matchTextAt (c :: (g' ++ X)) = none := by
      have := hfail (c :: g') (by simp) (List.suffix_refl _)
      simpa using this
    have e1 : (c :: g') ++ X = c :: (g' ++ X) := by simp
    rw [e1, textSplit_none hm]
    rw [ih X fun g2 h2 hsuf => hfail g2 h2 (hsuf.trans (List.suffix_cons c g'))]
    rw [show c :: g' = [c] ++ g' from rfl, consRawT_append]

theorem textSplit_of_goodTail : ∀ {qs : List TPiece}, GoodTail qs →
    textSplit (flattenT qs) = qs := by
  intro qs hg
  induction hg with
  | nil => rfl
  | @run a i ps hA hi h ih =>
    have hrun := matchTextAt_run (flattenT ps) hA hi
    rw [show flattenT (TPiece.run a i :: ps)
        = openT ++ (a ++ '>' :: (i ++ (closeT ++ flattenT ps))) by simp [flattenT]]
    rw [textSplit_some hrun, ih]
  | @raw g ps hne hfail hhead h ih =>
    rw [show flattenT (TPiece.raw g :: ps) = g ++ flattenT ps from rfl]
    rw [textSplit_gap g (flattenT ps) hfail, ih]
    rcases hhead with hh | ⟨a, i, ps2, hh⟩
    · subst hh
      simp [consRawT, hne]
    · subst hh
      simp [consRawT, hne]

/-- Re-scanning the rewritten content of a matched paragraph finds
exactly the rewritten pieces: the injector's output parses back into the
same run structure it wrote. -/
theorem textSplit_rewrite (c : List Char) {esc : List Char} (hesc : '<' ∉ esc) (b : Bool) :
    textSplit (flattenT (rewritePieces esc b (textSplit c))) = rewritePieces esc b (textSplit c) :=
  textSplit_of_goodTail (rewritePieces_goodTail esc hesc (textSplit c) b (textSplit_goodTail c))

theorem runsOf_eq (s : List Char) : runsOf s = runPairs (textSplit s) := by
  unfold runsOf
  generalize textSplit s = ps
  induction ps with
  | nil => rfl
  | cons p ps ih =>
    cases p with
    | raw g => simpa [runPairs] using ih
    | run a i => simpa [runPairs] using ih

theorem runInners_eq (ps : List TPiece) : runInners ps = (runPairs ps).map Prod.snd := by
  induction ps with
  | nil => rfl
  | cons p ps ih =>
    cases p with
    | raw g => simpa [runPairs, runInners] using ih
    | run a i => simpa [runPairs, runInners] using ih

theorem runPairs_rewrite_false (esc : List Char) : ∀ ps : List TPiece,
    runPairs (rewritePieces esc false ps)
      = (runPairs ps).map (fun p => (p.1, ([] : List Char))) := by
  intro ps
  induction ps with
  | nil => rfl
  | cons p ps ih =>
    cases p with
    | raw g => simpa [rewritePieces, runPairs] using ih
    | run a i => simpa [rewritePieces, runPairs] using ih

theorem runPairs_rewrite_true (esc : List Char) : ∀ ps : List TPiece,
    runPairs (rewritePieces esc true ps)
      = (match runPairs ps with
         | [] => []
         | (a, _) :: rest => (a, esc) :: rest.map (fun p => (p.1, ([] : List Char)))) := by
  intro ps
  induction ps with
  | nil => rfl
  | cons p ps ih =>
    cases p with
    | raw g =>
      rw [rewritePieces_raw]
      simpa [runPairs] using ih
    | run a i =>
      simp [rewritePieces, runPairs, runPairs_rewrite_false]

theorem joinL_nils {α : Type} (l : List α) :
    joinL (l.map fun _ => ([] : List Char)) = [] := by
  induction l with
  | nil => rfl
  | cons x l ih => simpa [joinL] using ih

/-!  ## Characterisation of `escapeXml` -/

theorem cmap_cons (f : Char → List Char) (c : Char) (l : List Char) :
    cmap f (c :: l) = f c ++ cmap f l := by simp [cmap]

theorem cmap_append (f : Char → List Char) (a b : List Char) :
    cmap f (a ++ b) = cmap f a ++ cmap f b := by simp [cmap]

theorem cmap_cmap (f g : Char → List Char) (l : List Char) :
    cmap g (cmap f l) = cmap (fun c => cmap g (f c)) l := by
  induction l with
  | nil => rfl
  | cons c l ih => rw [cmap_cons, cmap_cons, cmap_append, ih]

theorem cmap_congr {f g : Char → List Char} (h : ∀ c, f c = g c) (l : List Char) :
    cmap f l = cmap g l := by
  induction l with
  | nil => rfl
  | cons c l ih => rw [cmap_cons, cmap_cons, h, ih]

theorem replaceAllF_irrel (pat rep : List Char) :
    ∀ (n m : Nat) (s : List Char), s.length ≤ n → s.length ≤ m →
      replaceAllF pat rep n s = replaceAllF pat rep m s := by
  intro n
  induction n with
  | zero =>
    intro m s hn _
    have hs : s = [] := List.length_eq_zero.1 (Nat.le_zero.1 hn)
    subst hs
    cases m <;> rfl
  | succ n ih =>
    intro m s hn hm
    cases s with
    | nil => cases m <;> rfl
    | cons c rest =>
      cases m with
      | zero => simp at hm
      | succ m =>
        by_cases hp : pat.isPrefixOf (c :: rest)
        · simp only [replaceAllF, hp, if_true]
          rw [ih m (rest.drop (pat.length - 1)) (by simp at hn ⊢; omega)
            (by simp at hm ⊢; omega)]
        · have hrec := ih m rest (by simp at hn; omega) (by simp at hm; omega)
          simp only [replaceAllF, hp]
          simp [hrec]

theorem replaceAllL_pos (pat rep s' : List Char) (hp : pat ≠ []) :
    replaceAllL pat rep (pat ++ s') = rep ++ replaceAllL pat rep s' := by
  cases pat with
  | nil => exact absurd rfl hp
  | cons p0 pt =>
    unfold replaceAllL
    have hstep : (p0 :: pt) ++ s' = p0 :: (pt ++ s') := by simp
    rw [hstep]
    have hpre : (p0 :: pt).isPrefixOf (p0 :: (pt ++ s')) = true := by
      have hps := isPrefixOf_append_self (p0 :: pt) s'
      rwa [hstep] at hps
    have hlen : (p0 :: (pt ++ s')).length = (pt ++ s').length + 1 := by simp
    rw [hlen]
    simp only [replaceAllF, hpre, if_true, List.append_eq]
    have hdrop : (pt ++ s').drop ((p0 :: pt).length - 1) = s' := by
      have h1 : (p0 :: pt).length - 1 = pt.length := by simp
      rw [h1, List.drop_left pt s']
    rw [hdrop]
    congr 1
    exact replaceAllF_irrel (p0 :: pt) rep (pt ++ s').length s'.length s' (by simp) (Nat.le_refl _)

theorem replaceAllL_neg (pat rep : List Char) {c : Char} {u : List Char}
    (h : ¬ pat.isPrefixOf (c :: u)) :
    replaceAllL pat rep (c :: u) = c :: replaceAllL pat rep u := by
  unfold replaceAllL
  simp only [List.length_cons, replaceAllF, h]
  simp

theorem replaceAllL_single (c : Char) (rep : List Char) :
    ∀ s, replaceAllL [c] rep s = cmap (fun d => if d = c then rep else [d]) s := by
  intro s
  induction s with
  | nil => rfl
  | cons d u ih =>
    by_cases hd : d = c
    · subst hd
      have hpos := replaceAllL_pos [d] rep u (by simp)
      rw [show ([d] : List Char) ++ u = d :: u from rfl] at hpos
      rw [hpos, cmap_cons, if_pos rfl, ih]
    · have hnp : ¬ ([c].isPrefixOf (d :: u)) := by
        simp [List.isPrefixOf]
        exact fun he => absurd he.symm hd
      rw [replaceAllL_neg [c] rep hnp, cmap_cons, if_neg hd, ih]
      rfl

theorem escL_eq (s : List Char) : escL s = cmap escChar s := by
  unfold escL
  rw [replaceAllL_single, replaceAllL_single, replaceAllL_single, replaceAllL_single,
    replaceAllL_single, cmap_cmap, cmap_cmap, cmap_cmap, cmap_cmap]
  apply cmap_congr
  intro c
  by_cases h1 : c = '&'
  · subst h1; decide
  by_cases h2 : c = '<'
  · subst h2; decide
  by_cases h3 : c = '>'
  · subst h3; decide
  by_cases h4 : c = '"'
  · subst h4; decide
  by_cases h5 : c = '\''
  · subst h5; decide
  simp [escChar, cmap, h1, h2, h3, h4, h5]

theorem escChar_no_angle (c : Char) : '<' ∉ escChar c ∧ '>' ∉ escChar c := by
  unfold escChar
  by_cases h1 : c = '&'
  · subst h1; exact ⟨by decide, by decide⟩
  by_cases h2 : c = '<'
  · subst h2; exact ⟨by decide, by decide⟩
  by_cases h3 : c = '>'
  · subst h3; exact ⟨by decide, by decide⟩
  by_cases h4 : c = '"'
  · subst h4; exact ⟨by decide, by decide⟩
  by_cases h5 : c = '\''
  · subst h5; exact ⟨by decide, by decide⟩
  simp only [h1, h2, h3, h4, h5, if_false]
  constructor
  · intro hm
    rcases List.mem_singleton.1 hm with rfl
    exact h2 rfl
  · intro hm
    rcases List.mem_singleton.1 hm with rfl
    exact h3 rfl

theorem escL_no_lt (s : List Char) : '<' ∉ escL s := by
  rw [escL_eq]
  intro hm
  simp only [cmap, List.mem_flatten, List.mem_map] at hm
  obtain ⟨l, ⟨c, _, hc⟩, hmem⟩ := hm
  rw [← hc] at hmem
  exact (escChar_no_angle c).1 hmem

theorem escL_no_gt (s : List Char) : '>' ∉ escL s := by
  rw [escL_eq]
  intro hm
  simp only [cmap, List.mem_flatten, List.mem_map] at hm
  obtain ⟨l, ⟨c, _, hc⟩, hmem⟩ := hm
  rw [← hc] at hmem
  exact (escChar_no_angle c).2 hmem

/-!  ## Properties of the paragraph scan -/

theorem matchParaAt_sound {s o c r : List Char}
    (h : matchParaAt s = some (o, c, r)) : s = o ++ (c ++ (closeP ++ r)) := by
  unfold matchParaAt at h
  by_cases hp : openP.isPrefixOf s
  case neg => simp [hp] at h
  simp only [hp, if_true] at h
  obtain ⟨t, ht⟩ := (List.isPrefixOf_iff_prefix).1 hp
  have hdt : s.drop 4 = t := by
    rw [← ht]
    have hd := List.drop_left openP t
    rw [show openP.length = 4 from rfl] at hd
    exact hd
  rw [hdt] at h
  cases t with
  | nil => simp at h
  | cons c0 r0 =>
    by_cases hw : isWordChar c0
    · simp [hw] at h
    · simp only [hw, Bool.false_eq_true, if_false] at h
      cases hdw : (c0 :: r0).dropWhile (· != '>') with
      | nil => rw [hdw] at h; simp at h
      | cons g afterGt =>
        rw [hdw] at h
        have hg : g = '>' := by
          have := dropWhile_head_false hdw
          simpa using this
        cases hsf : splitFirst closeP afterGt with
        | none =>
          have h2 : (match splitFirst closeP afterGt with
              | none => none
              | some (content, rest) =>
                some (openP ++ (c0 :: r0).takeWhile (· != '>') ++ ['>'], content, rest))
              = some (o, c, r) := h
          rw [hsf] at h2
          simp at h2
        | some p =>
          obtain ⟨content, rest⟩ := p
          have h2 : (match splitFirst closeP afterGt with
              | none => none
              | some (content, rest) =>
                some (openP ++ (c0 :: r0).takeWhile (· != '>') ++ ['>'], content, rest))
              = some (o, c, r) := h
          rw [hsf] at h2
          simp only [Option.some.injEq, Prod.mk.injEq] at h2
          obtain ⟨h1, h3, h4⟩ := h2
          have hag := splitFirst_sound hsf
          have hsplit := takeWhile_dropWhile_eq (· != '>') (c0 :: r0)
          rw [hdw, hg] at hsplit
          rw [← ht, ← h1, ← h3, ← h4]
          conv_lhs => rw [hsplit]
          rw [hag]
          simp

theorem matchParaAt_length {s o c r : List Char}
    (h : matchParaAt s = some (o, c, r)) : r.length + 11 ≤ s.length := by
  have hs := matchParaAt_sound h
  have ho : 5 ≤ o.length := by
    unfold matchParaAt at h
    by_cases hp : openP.isPrefixOf s
    case neg => simp [hp] at h
    simp only [hp, if_true] at h
    cases ht : s.drop 4 with
    | nil => rw [ht] at h; simp at h
    | cons c0 r0 =>
      rw [ht] at h
      by_cases hw : isWordChar c0
      · simp [hw] at h
      · simp only [hw, Bool.false_eq_true, if_false] at h
        cases hdw : (c0 :: r0).dropWhile (· != '>') with
        | nil => rw [hdw] at h; simp at h
        | cons g afterGt =>
          rw [hdw] at h
          cases hsf : splitFirst closeP afterGt with
          | none =>
            have h2 : (match splitFirst closeP afterGt with
                | none => none
                | some (content, rest) =>
                  some (openP ++ (c0 :: r0).takeWhile (· != '>') ++ ['>'], content, rest))
                = some (o, c, r) := h
            rw [hsf] at h2
            simp at h2
          | some p =>
            obtain ⟨content, rest⟩ := p
            have h2 : (match splitFirst closeP afterGt with
                | none => none
                | some (content, rest) =>
                  some (openP ++ (c0 :: r0).takeWhile (· != '>') ++ ['>'], content, rest))
                = some (o, c, r) := h
            rw [hsf] at h2
            simp only [Option.some.injEq, Prod.mk.injEq] at h2
            rw [← h2.1]
            simp [openP]
  rw [hs]
  simp [closeP]
  omega

theorem flattenP_paraSplitF : ∀ (n : Nat) (acc s : List Char),
    flattenP (paraSplitF n acc s) = acc.reverse ++ s := by
  intro n
  induction n with
  | zero =>
    intro acc s
    by_cases h : acc = [] ∧ s = []
    · simp [paraSplitF, h, h.1, h.2, flattenP]
    · simp [paraSplitF, h, flattenP]
  | succ n ih =>
    intro acc s
    cases s with
    | nil =>
      by_cases h : acc = []
      · simp [paraSplitF, h, flattenP]
      · simp [paraSplitF, h, flattenP]
    | cons c rest =>
      cases hm : matchParaAt (c :: rest) with
      | none =>
        simp only [paraSplitF, hm]
        rw [ih]
        simp
      | some t =>
        obtain ⟨o, content, r⟩ := t
        have hs := matchParaAt_sound hm
        simp only [paraSplitF, hm]
        by_cases hacc : acc = []
        · simp only [hacc, if_pos rfl, List.nil_append, flattenP]
          rw [ih, hs]
          simp
        · simp only [hacc, if_neg hacc, List.cons_append, List.nil_append, flattenP,
            List.append_nil, List.singleton_append]
          rw [ih, hs]
          simp [flattenP]

theorem flattenP_paraSplit (s : List Char) : flattenP (paraSplit s) = s := by
  simpa using flattenP_paraSplitF s.length [] s

theorem string_mk_data (s : String) : (⟨s.data⟩ : String) = s := by
  cases s
  rfl

/-!  ## Claim theorems -/

/-- C1.  Key stability: on every paragraph content, the run texts pushed
by the extractor's `exec` loop coincide with the run texts the injector
recomputes for its lookup key, so the concatenated segment text equals
the concatenated lookup key for the same unmodified paragraph. -/
theorem spec_c1_key_stability (content : List Char) :
    collectTextsE content = collectTextsI content ∧
    joinL (collectTextsE content) = joinL (collectTextsI content) := by
  have h : collectTextsE content = collectTextsI content := by
    unfold collectTextsE collectTextsI
    rw [collectTextsF_E_eq_I]
  exact ⟨h, by rw [h]⟩

/-- A paragraph whose recomputed text has no translation is emitted as
the verbatim full match. -/
theorem rewritePara_miss (m : String → Option String) (o c : List Char)
    (h : m ⟨joinL (collectTextsI c)⟩ = none) :
    rewritePara m (Piece.para o c) = o ++ c ++ closeP := by
  simp [rewritePara, h]

/-- C3.  Non-matching passthrough: a paragraph whose recomputed text is
not a key of the mapping is emitted verbatim (the full match), and
injection with the empty mapping is the identity on any document part. -/
theorem spec_c3_passthrough_roundtrip :
    (∀ (m : String → Option String) (o c : List Char),
        m ⟨joinL (collectTextsI c)⟩ = none →
        rewritePara m (Piece.para o c) = o ++ c ++ closeP) ∧
    (∀ xml : String, replaceParagraphText xml (fun _ => none) = xml) := by
  constructor
  · exact rewritePara_miss
  · intro xml
    unfold replaceParagraphText
    have hmap : ∀ ps : List Piece,
        ((ps.map (rewritePara (fun _ => none))).flatten) = flattenP ps := by
      intro ps
      induction ps with
      | nil => rfl
      | cons p ps ih =>
        cases p with
        | raw g => simpa [rewritePara, flattenP] using ih
        | para o c => simp [rewritePara, flattenP, ih]
    rw [hmap, flattenP_paraSplit, string_mk_data]

/-- C5.  A paragraph block whose concatenated run text trims to the
empty string produces no segment and leaves the identifier counter
untouched, so the rest of the document is numbered exactly as if the
block were not there. -/
theorem spec_c5_empty_paragraph_skip (o c : List Char) (ps : List Piece) (src : String)
    (n : Nat) (h : (jsTrim (joinL (collectTextsE c))).length = 0) :
    extractLoop src (Piece.para o c :: ps) n = extractLoop src ps n := by
  simp [extractLoop, h]

theorem spec_c5_witness :
    (jsTrim (joinL (collectTextsE "<w:r><w:t> \t </w:t></w:r>".data))).length = 0 ∧
    extractLoop "word/document.xml"
        (Piece.para "<w:p>".data "<w:r><w:t> \t </w:t></w:r>".data :: []) 7
      = extractLoop "word/document.xml" [] 7 :=
  ⟨by decide, spec_c5_empty_paragraph_skip "<w:p>".data "<w:r><w:t> \t </w:t></w:r>".data
    [] "word/document.xml" 7 (by decide)⟩

/-- Counter bookkeeping of the extractor loop over a piece list. -/
theorem extractLoop_spec (src : String) : ∀ (ps : List Piece) (n : Nat),
    (extractLoop src ps n).2 = n + (extractLoop src ps n).1.length ∧
    (extractLoop src ps n).1.map (fun seg => seg.id)
      = (List.range (extractLoop src ps n).1.length).map
          (fun k => "p" ++ toString (n + k)) := by
  intro ps
  induction ps with
  | nil => intro n; simp [extractLoop]
  | cons p ps ih =>
    intro n
    cases p with
    | raw g => simpa [extractLoop] using ih n
    | para o c =>
      by_cases h : (jsTrim (joinL (collectTextsE c))).length = 0
      · simpa [extractLoop, h] using ih n
      · have ih1 := ih (n + 1)
        constructor
        · simp only [extractLoop, h, if_false]
          simp only [List.length_cons]
          omega
        · simp only [extractLoop, h, if_false]
          simp only [List.map_cons, List.length_cons]
          rw [ih1.2]
          rw [List.range_succ_eq_map]
          simp only [List.map_cons, List.map_map]
          refine List.cons_eq_cons.2 ⟨by simp, ?_⟩
          apply List.map_congr_left
          intro k hk
          simp only [Function.comp_apply]
          congr 2
          omega

/-- C9.  Counter threading: extraction returns `startId` plus the number
of emitted segments as the next identifier, and the `i`-th emitted
segment is named `p<startId + i>`. -/
theorem spec_c9_counter_threading (xml src : String) (startId : Nat) :
    (extractParagraphSegments xml src startId).2
        = startId + (extractParagraphSegments xml src startId).1.length ∧
    (extractParagraphSegments xml src startId).1.map (fun seg => seg.id)
        = (List.range (extractParagraphSegments xml src startId).1.length).map
            (fun k => "p" ++ toString (startId + k)) :=
  extractLoop_spec src (paraSplit xml.data) startId

theorem goodTail_joinL_no_lt : ∀ {ps : List TPiece}, GoodTail ps →
    '<' ∉ joinL (runInners ps) := by
  intro ps hg
  induction hg with
  | nil => simp [joinL, runInners]
  | run hA hi h ih =>
    simp only [runInners, joinL, List.flatten_cons]
    intro hm
    rcases List.mem_append.1 hm with hm | hm
    · exact hi hm
    · exact ih hm
  | raw hne hfail hhead h ih => simpa [runInners] using ih

/-- Extracted segments take their text from the run loop on some
paragraph content of the piece list. -/
theorem extractLoop_text_shape (src : String) : ∀ (ps : List Piece) (n : Nat)
    (seg : ParagraphSegment), seg ∈ (extractLoop src ps n).1 →
    ∃ c : List Char, seg.text = ⟨joinL (collectTextsE c)⟩ := by
  intro ps
  induction ps with
  | nil => intro n seg h; simp [extractLoop] at h
  | cons p ps ih =>
    intro n seg h
    cases p with
    | raw g =>
      simp only [extractLoop] at h
      exact ih n seg h
    | para o c =>
      by_cases hskip : (jsTrim (joinL (collectTextsE c))).length = 0
      · simp only [extractLoop, hskip, if_pos] at h
        exact ih n seg h
      · simp only [extractLoop, hskip, if_false, List.mem_cons] at h
        rcases h with h | h
        · exact ⟨c, by rw [h]⟩
        · exact ih (n + 1) seg h

/-- C10.  Flat-run-only extraction: a text-run match never captures a
`<`, so no segment text and no injector lookup key contains one. -/
theorem spec_c10_no_markup :
    (∀ (s a i r : List Char), matchTextAt s = some (a, i, r) → '<' ∉ i) ∧
    (∀ (xml src : String) (k : Nat) (seg : ParagraphSegment),
        seg ∈ (extractParagraphSegments xml src k).1 → '<' ∉ seg.text.data) ∧
    (∀ content : List Char, '<' ∉ joinL (collectTextsI content)) := by
  refine ⟨?_, ?_, ?_⟩
  · intro s a i r h
    exact (matchTextAt_sound h).2.1
  · intro xml src k seg hmem
    obtain ⟨c, hc⟩ := extractLoop_text_shape src (paraSplit xml.data) k seg hmem
    rw [hc]
    show '<' ∉ joinL (collectTextsE c)
    rw [collectTextsE_eq]
    exact goodTail_joinL_no_lt (textSplit_goodTail c)
  · intro content
    rw [collectTextsI_eq]
    exact goodTail_joinL_no_lt (textSplit_goodTail content)

theorem spec_c10_witness : '<' ∉ (['H', 'i'] : List Char) :=
  spec_c10_no_markup.1 "<w:t>Hi</w:t>".data [] ['H', 'i'] [] (by decide)

/-- C7.  `getXmlContent` raises exactly for a missing entry, naming the
missing path, and returns the decoded bytes when the entry exists (it is
a pure function of the package, which it leaves untouched). -/
theorem spec_c7_missing_entry (decode : List Nat → String)
    (files : List (String × List Nat)) (path : String) :
    (files.lookup path = none →
        getXmlContent decode files path
          = Except.error ("File not found in DOCX: " ++ path)) ∧
    (∀ bytes, files.lookup path = some bytes →
        getXmlContent decode files path = Except.ok (decode bytes)) ∧
    ((∃ e, getXmlContent decode files path = Except.error e) ↔
        files.lookup path = none) := by
  refine ⟨?_, ?_, ?_⟩
  · intro h
    simp [getXmlContent, h]
  · intro bytes h
    simp [getXmlContent, h]
  · constructor
    · rintro ⟨e, he⟩
      cases h : files.lookup path with
      | none => rfl
      | some bytes =>
        rw [show getXmlContent decode files path = Except.ok (decode bytes) by
          simp [getXmlContent, h]] at he
        simp at he
    · intro h
      exact ⟨"File not found in DOCX: " ++ path, by simp [getXmlContent, h]⟩

theorem spec_c7_witness :
    ([(("word/document.xml" : String), ([60, 119] : List Nat))].lookup "word/numbering.xml"
        = none) ∧
    getXmlContent (fun _ => "") [("word/document.xml", [60, 119])] "word/numbering.xml"
      = Except.error ("File not found in DOCX: " ++ "word/numbering.xml") :=
  ⟨by decide, (spec_c7_missing_entry (fun _ => "") [("word/document.xml", [60, 119])]
    "word/numbering.xml").1 (by decide)⟩

/-- C8.  Plain-text round trip on the spec's example: rendering two
segments and reparsing yields exactly the id → text association. -/
theorem spec_c8_plain_text_round_trip :
    parseTxtTranslations (renderTxt
        [⟨"p0", "A", none, "word/document.xml", 1⟩,
         ⟨"p1", "B", none, "word/document.xml", 1⟩])
      = [("p0", "A"), ("p1", "B")] := by decide

theorem spec_c3_witness :
    ((fun s => if s = ("X" : String) then some ("Y" : String) else none) "A" = none) ∧
    rewritePara (fun s => if s = ("X" : String) then some ("Y" : String) else none)
        (Piece.para "<w:p>".data "<w:t>A</w:t>".data)
      = "<w:p>".data ++ "<w:t>A</w:t>".data ++ closeP :=
  ⟨by decide, spec_c3_passthrough_roundtrip.1
    (fun s => if s = ("X" : String) then some ("Y" : String) else none)
    "<w:p>".data "<w:t>A</w:t>".data (by decide)⟩

/-- C2.  Rewrite rule for a matched paragraph: when the recomputed text
is a key of the mapping and the paragraph has `n ≥ 1` text runs, the
rewritten content still parses into exactly `n` text runs, the first
carrying the XML-escaped translation, every later one empty, and each
run keeping its original attributes. -/
theorem spec_c2_run_preservation (o c : List Char) (m : String → Option String) (t : String)
    (a1 i1 : List Char) (rs : List (List Char × List Char))
    (hfound : m ⟨joinL (collectTextsI c)⟩ = some t)
    (hruns : runsOf c = (a1, i1) :: rs) :
    rewritePara m (Piece.para o c)
        = openP ++ pOpenGroup (o ++ c ++ closeP) ++ '>'
            :: (flattenT (rewritePieces (escL t.data) true (textSplit c)) ++ closeP) ∧
    runsOf (flattenT (rewritePieces (escL t.data) true (textSplit c)))
        = (a1, escL t.data) :: rs.map (fun p => (p.1, ([] : List Char))) := by
  constructor
  · simp [rewritePara, hfound]
  · rw [runsOf_eq, textSplit_rewrite c (escL_no_lt t.data) true, runPairs_rewrite_true]
    rw [runsOf_eq] at hruns
    rw [hruns]

theorem spec_c2_witness :
    ((fun s => if s = ("ABC" : String) then some ("X&Y" : String) else none)
        ⟨joinL (collectTextsI "<w:r><w:t>A</w:t></w:r><w:r><w:t xml:space=\"preserve\">B</w:t></w:r><w:r><w:t>C</w:t></w:r>".data)⟩
      = some "X&Y") ∧
    runsOf "<w:r><w:t>A</w:t></w:r><w:r><w:t xml:space=\"preserve\">B</w:t></w:r><w:r><w:t>C</w:t></w:r>".data
      = (([] : List Char), "A".data) ::
        [(" xml:space=\"preserve\"".data, "B".data), (([] : List Char), "C".data)] ∧
    runsOf (flattenT (rewritePieces (escL "X&Y".data) true
        (textSplit "<w:r><w:t>A</w:t></w:r><w:r><w:t xml:space=\"preserve\">B</w:t></w:r><w:r><w:t>C</w:t></w:r>".data)))
      = (([] : List Char), escL "X&Y".data) ::
        [(" xml:space=\"preserve\"".data, "B".data), (([] : List Char), "C".data)].map
          (fun p => (p.1, ([] : List Char))) :=
  ⟨by decide, by decide,
    (spec_c2_run_preservation "<w:p>".data
      "<w:r><w:t>A</w:t></w:r><w:r><w:t xml:space=\"preserve\">B</w:t></w:r><w:r><w:t>C</w:t></w:r>".data
      (fun s => if s = ("ABC" : String) then some ("X&Y" : String) else none) "X&Y"
      [] "A".data [(" xml:space=\"preserve\"".data, "B".data), ([], "C".data)]
      (by decide) (by decide)).2⟩

/-- C6 as stated is false: after injection the reconstructed text of the
rewritten paragraph is the XML-escaped translation, not the translation
itself.  Concretely, injecting `A&B` for `Hi` and re-extracting yields
`A&amp;B`. -/
theorem spec_c6_counterexample :
    ((extractParagraphSegments (replaceParagraphText "<w:p><w:r><w:t>Hi</w:t></w:r></w:p>"
          (fun s => if s = ("Hi" : String) then some ("A&B" : String) else none))
        "word/document.xml" 0).1.map (fun seg => seg.text) = ["A&amp;B"]) ∧
    ("A&amp;B" : String) ≠ "A&B" := by
  constructor
  · decide
  · decide

/-- C6, amended.  For a matched paragraph with at least one text run,
re-running the run-text reconstruction on the rewritten content yields
exactly `escapeXml` of the translated text; hence a second injection
pass is a no-op on that paragraph whenever the escaped translation is
not itself a key of the mapping. -/
theorem spec_c6_amended (c : List Char) (m : String → Option String) (t : String)
    (hfound : m ⟨joinL (collectTextsI c)⟩ = some t)
    (hruns : runsOf c ≠ []) :
    joinL (collectTextsI (flattenT (rewritePieces (escL t.data) true (textSplit c))))
        = escL t.data ∧
    (∀ (m2 : String → Option String) (o2 : List Char),
        m2 ⟨escL t.data⟩ = none →
        rewritePara m2
            (Piece.para o2 (flattenT (rewritePieces (escL t.data) true (textSplit c))))
          = o2 ++ flattenT (rewritePieces (escL t.data) true (textSplit c)) ++ closeP) := by
  have hmain : joinL (collectTextsI (flattenT (rewritePieces (escL t.data) true (textSplit c))))
      = escL t.data := by
    rw [collectTextsI_eq, textSplit_rewrite c (escL_no_lt t.data) true]
    rw [runInners_eq, runPairs_rewrite_true]
    rw [runsOf_eq] at hruns
    cases hrp : runPairs (textSplit c) with
    | nil => exact absurd hrp hruns
    | cons p rest =>
      obtain ⟨a1, i1⟩ := p
      simp only [List.map_cons, List.map_map, joinL, List.flatten_cons]
      have hnil : (rest.map (Prod.snd ∘ fun p : List Char × List Char =>
          (p.1, ([] : List Char)))).flatten = [] := by
        induction rest with
        | nil => rfl
        | cons x l ihl => simpa using ihl
      rw [hnil]
      simp
  refine ⟨hmain, ?_⟩
  intro m2 o2 hnone
  apply rewritePara_miss m2 o2 (flattenT (rewritePieces (escL t.data) true (textSplit c)))
  rw [hmain]
  exact hnone

theorem spec_c6_amended_witness :
    ((fun s => if s = ("Hi" : String) then some ("A&B" : String) else none)
        ⟨joinL (collectTextsI "<w:r><w:t>Hi</w:t></w:r>".data)⟩ = some "A&B") ∧
    runsOf "<w:r><w:t>Hi</w:t></w:r>".data ≠ [] ∧
    joinL (collectTextsI (flattenT (rewritePieces (escL "A&B".data) true
        (textSplit "<w:r><w:t>Hi</w:t></w:r>".data)))) = escL "A&B".data :=
  ⟨by decide, by decide,
    (spec_c6_amended "<w:r><w:t>Hi</w:t></w:r>".data
      (fun s => if s = ("Hi" : String) then some ("A&B" : String) else none) "A&B"
      (by decide) (by decide)).1⟩

theorem occursSub_of_suffix (pat l t0 : List Char) (hsuf : t0 <:+ l)
    (hpre : pat.isPrefixOf t0 = true) : occursSub pat l = true := by
  induction l with
  | nil =>
    have ht : t0 = [] := List.suffix_nil.1 hsuf
    subst ht
    cases pat with
    | nil => rfl
    | cons p0 pt => simp [List.isPrefixOf] at hpre
  | cons c rest ih =>
    rcases List.suffix_cons_iff.1 hsuf with hfu | htail
    · subst hfu
      simp [occursSub, hpre]
    · simp [occursSub, ih htail]

theorem cmap_id (t : List Char) : cmap (fun c => [c]) t = t := by
  induction t with
  | nil => rfl
  | cons c l ih => rw [cmap_cons, ih]; rfl

theorem no_prefix_of_amp_tail {pt m d : List Char} (hm : '&' ∉ m) (hd : d ≠ [])
    (hsuf : d <:+ m) (X : List Char) :
    ('&' :: pt).isPrefixOf (d ++ X) = false := by
  cases d with
  | nil => exact absurd rfl hd
  | cons d0 d' =>
    have hd0 : d0 ∈ m := hsuf.subset (by simp)
    have hne : d0 ≠ '&' := fun hh => hm (hh ▸ hd0)
    rw [show (d0 :: d') ++ X = d0 :: (d' ++ X) by simp]
    exact isPrefixOf_head_ne (fun hh => hne hh.symm)

theorem entity_mismatch {a b : Char} (p' e' X : List Char) (hab : a ≠ b) :
    ('&' :: a :: p').isPrefixOf (('&' :: b :: e') ++ X) = false := by
  have h : ((['&'] ++ a :: p').isPrefixOf ((['&'] ++ b :: e') ++ X)) = false :=
    isPrefixOf_mismatch p' e' X hab
  simpa using h

theorem suffix_block_no_pfx {ptail bi d : List Char} (hbi : '&' ∉ bi)
    (hd : d ≠ []) (hsuf : d <:+ ('&' :: bi))
    (hfull : ∀ X, ('&' :: ptail).isPrefixOf (('&' :: bi) ++ X) = false)
    (X : List Char) : ('&' :: ptail).isPrefixOf (d ++ X) = false := by
  rcases List.suffix_cons_iff.1 hsuf with hfu | htail
  · subst hfu
    exact hfull X
  · exact no_prefix_of_amp_tail hbi hd htail X

theorem cmap_pfx_lift (f : Char → List Char)
    (hf : ∀ c, f c = [c] ∨ ∃ b, f c = '&' :: b) :
    ∀ (q : List Char), '&' ∉ q → ∀ t1, q.isPrefixOf (cmap f t1) = true →
      q.isPrefixOf t1 = true := by
  intro q
  induction q with
  | nil => intro _ t1 _; simp [List.isPrefixOf]
  | cons x q' ih =>
    intro hq t1 hpre
    cases t1 with
    | nil => simp [cmap, List.isPrefixOf] at hpre
    | cons c t2 =>
      rw [cmap_cons] at hpre
      rcases hf c with hc | ⟨b, hc⟩
      · rw [hc, show ([c] : List Char) ++ cmap f t2 = c :: cmap f t2 by simp] at hpre
        simp only [List.isPrefixOf, Bool.and_eq_true] at hpre ⊢
        refine ⟨hpre.1, ?_⟩
        exact ih (fun hh => hq (List.mem_cons_of_mem x hh)) t2 hpre.2
      · rw [hc, show ('&' :: b) ++ cmap f t2 = '&' :: (b ++ cmap f t2) by simp] at hpre
        simp only [List.isPrefixOf, Bool.and_eq_true] at hpre
        have hx : x = '&' := by simpa using hpre.1
        exact absurd (hx ▸ List.mem_cons_self x q') hq

theorem replaceAllL_block (pat rep b X : List Char)
    (hb : ∀ d, d ≠ [] → d <:+ b → ¬ (pat.isPrefixOf (d ++ X) = true)) :
    replaceAllL pat rep (b ++ X) = b ++ replaceAllL pat rep X := by
  induction b with
  | nil => simp
  | cons c b' ih =>
    have hstep : ¬ pat.isPrefixOf (c :: (b' ++ X)) = true := by
      have hh := hb (c :: b') (by simp) (List.suffix_refl _)
      simpa using hh
    rw [show (c :: b') ++ X = c :: (b' ++ X) by simp, replaceAllL_neg pat rep hstep]
    rw [ih (fun d hd hsuf => hb d hd (hsuf.trans (List.suffix_cons c b')))]
    simp

theorem replaceAll_cmap (p r : List Char) (f g : Char → List Char) (hp : p ≠ [])
    (hg : ∀ c, g c = if f c = p then r else f c) (t : List Char)
    (H : ∀ (c : Char) (t1 : List Char), (c :: t1) <:+ t → f c ≠ p →
      ∀ d, d ≠ [] → d <:+ f c → ¬ (p.isPrefixOf (d ++ cmap f t1) = true)) :
    replaceAllL p r (cmap f t) = cmap g t := by
  suffices haux : ∀ t', t' <:+ t → replaceAllL p r (cmap f t') = cmap g t' from
    haux t (List.suffix_refl t)
  intro t'
  induction t' with
  | nil => intro _; rfl
  | cons c t1 ih =>
    intro hsuf
    rw [cmap_cons, cmap_cons]
    have htail : t1 <:+ t := ((List.suffix_cons c t1).trans hsuf)
    by_cases hfc : f c = p
    · rw [hfc, replaceAllL_pos p r (cmap f t1) hp, hg c, hfc, if_pos rfl, ih htail]
    · rw [replaceAllL_block p r (f c) (cmap f t1) (H c t1 hsuf hfc), hg c, if_neg hfc,
        ih htail]

theorem singleton_ne_of_length {c : Char} {l : List Char} (h : 2 ≤ l.length) :
    ([c] : List Char) ≠ l := by
  intro hcon
  have hlen := congrArg List.length hcon
  simp at hlen
  omega

theorem stage1_g (c : Char) :
    escChar1 c = if escChar c = "&amp;".data then ['&'] else escChar c := by
  by_cases h1 : c = '&'
  · subst h1; decide
  by_cases h2 : c = '<'
  · subst h2; decide
  by_cases h3 : c = '>'
  · subst h3; decide
  by_cases h4 : c = '"'
  · subst h4; decide
  by_cases h5 : c = '\''
  · subst h5; decide
  have he : escChar c = [c] := by simp [escChar, h1, h2, h3, h4, h5]
  have he1 : escChar1 c = [c] := by simp [escChar1, h2, h3, h4, h5]
  rw [he, he1, if_neg (singleton_ne_of_length (by decide))]

theorem stage2_g (c : Char) :
    escChar2 c = if escChar1 c = "&lt;".data then ['<'] else escChar1 c := by
  by_cases h2 : c = '<'
  · subst h2; decide
  by_cases h3 : c = '>'
  · subst h3; decide
  by_cases h4 : c = '"'
  · subst h4; decide
  by_cases h5 : c = '\''
  · subst h5; decide
  have he : escChar1 c = [c] := by simp [escChar1, h2, h3, h4, h5]
  have he1 : escChar2 c = [c] := by simp [escChar2, h3, h4, h5]
  rw [he, he1, if_neg (singleton_ne_of_length (by decide))]

theorem stage3_g (c : Char) :
    escChar3 c = if escChar2 c = "&gt;".data then ['>'] else escChar2 c := by
  by_cases h3 : c = '>'
  · subst h3; decide
  by_cases h4 : c = '"'
  · subst h4; decide
  by_cases h5 : c = '\''
  · subst h5; decide
  have he : escChar2 c = [c] := by simp [escChar2, h3, h4, h5]
  have he1 : escChar3 c = [c] := by simp [escChar3, h4, h5]
  rw [he, he1, if_neg (singleton_ne_of_length (by decide))]

theorem stage4_g (c : Char) :
    escChar4 c = if escChar3 c = "&quot;".data then ['"'] else escChar3 c := by
  by_cases h4 : c = '"'
  · subst h4; decide
  by_cases h5 : c = '\''
  · subst h5; decide
  have he : escChar3 c = [c] := by simp [escChar3, h4, h5]
  have he1 : escChar4 c = [c] := by simp [escChar4, h5]
  rw [he, he1, if_neg (singleton_ne_of_length (by decide))]

theorem stage5_g (c : Char) :
    [c] = if escChar4 c = "&apos;".data then ['\''] else escChar4 c := by
  by_cases h5 : c = '\''
  · subst h5; decide
  have he : escChar4 c = [c] := by simp [escChar4, h5]
  rw [he, if_neg (singleton_ne_of_length (by decide))]

theorem escChar1_shape (c : Char) : escChar1 c = [c] ∨ ∃ b, escChar1 c = '&' :: b := by
  by_cases h2 : c = '<'
  · subst h2; exact Or.inr ⟨['l', 't', ';'], by decide⟩
  by_cases h3 : c = '>'
  · subst h3; exact Or.inr ⟨['g', 't', ';'], by decide⟩
  by_cases h4 : c = '"'
  · subst h4; exact Or.inr ⟨['q', 'u', 'o', 't', ';'], by decide⟩
  by_cases h5 : c = '\''
  · subst h5; exact Or.inr ⟨['a', 'p', 'o', 's', ';'], by decide⟩
  exact Or.inl (by simp [escChar1, h2, h3, h4, h5])

theorem escChar2_shape (c : Char) : escChar2 c = [c] ∨ ∃ b, escChar2 c = '&' :: b := by
  by_cases h3 : c = '>'
  · subst h3; exact Or.inr ⟨['g', 't', ';'], by decide⟩
  by_cases h4 : c = '"'
  · subst h4; exact Or.inr ⟨['q', 'u', 'o', 't', ';'], by decide⟩
  by_cases h5 : c = '\''
  · subst h5; exact Or.inr ⟨['a', 'p', 'o', 's', ';'], by decide⟩
  exact Or.inl (by simp [escChar2, h3, h4, h5])

theorem escChar3_shape (c : Char) : escChar3 c = [c] ∨ ∃ b, escChar3 c = '&' :: b := by
  by_cases h4 : c = '"'
  · subst h4; exact Or.inr ⟨['q', 'u', 'o', 't', ';'], by decide⟩
  by_cases h5 : c = '\''
  · subst h5; exact Or.inr ⟨['a', 'p', 'o', 's', ';'], by decide⟩
  exact Or.inl (by simp [escChar3, h4, h5])

theorem escChar4_shape (c : Char) : escChar4 c = [c] ∨ ∃ b, escChar4 c = '&' :: b := by
  by_cases h5 : c = '\''
  · subst h5; exact Or.inr ⟨['a', 'p', 'o', 's', ';'], by decide⟩
  exact Or.inl (by simp [escChar4, h5])

theorem raw_char_H {p2 : List Char} {c : Char} {t t1 : List Char} (f : Char → List Char)
    (hshape : ∀ x, f x = [x] ∨ ∃ b, f x = '&' :: b)
    (hq : '&' ∉ p2)
    (hocc : occursSub ('&' :: p2) t = false)
    (hsuf0 : (c :: t1) <:+ t) :
    ¬ (('&' :: p2).isPrefixOf ([c] ++ cmap f t1) = true) := by
  intro hcon
  rw [show ([c] : List Char) ++ cmap f t1 = c :: cmap f t1 by simp] at hcon
  by_cases hamp : c = '&'
  · subst hamp
    simp only [List.isPrefixOf, Bool.and_eq_true] at hcon
    have hlift := cmap_pfx_lift f hshape p2 hq t1 hcon.2
    have hpre : ('&' :: p2).isPrefixOf ('&' :: t1) = true := by
      simp [List.isPrefixOf, hlift]
    have hoc2 := occursSub_of_suffix ('&' :: p2) t ('&' :: t1) hsuf0 hpre
    rw [hocc] at hoc2
    simp at hoc2
  · rw [isPrefixOf_head_ne (fun hh => hamp hh.symm)] at hcon
    simp at hcon

theorem pass1_H (t : List Char) : ∀ (c : Char) (t1 : List Char), (c :: t1) <:+ t →
    escChar c ≠ "&amp;".data → ∀ d, d ≠ [] → d <:+ escChar c →
    ¬ ("&amp;".data.isPrefixOf (d ++ cmap escChar t1) = true) := by
  intro c t1 _ hfc d hd hsuf
  intro hcon
  rw [show ("&amp;".data : List Char) = '&' :: 'a' :: "mp;".data from by decide] at hcon
  by_cases h1 : c = '&'
  · subst h1
    exact hfc (by decide)
  by_cases h2 : c = '<'
  · subst h2
    rw [show escChar '<' = '&' :: 'l' :: "t;".data from by decide] at hsuf
    rw [suffix_block_no_pfx (by decide) hd hsuf
      (fun X => entity_mismatch "mp;".data "t;".data X (by decide)) (cmap escChar t1)] at hcon
    simp at hcon
  by_cases h3 : c = '>'
  · subst h3
    rw [show escChar '>' = '&' :: 'g' :: "t;".data from by decide] at hsuf
    rw [suffix_block_no_pfx (by decide) hd hsuf
      (fun X => entity_mismatch "mp;".data "t;".data X (by decide)) (cmap escChar t1)] at hcon
    simp at hcon
  by_cases h4 : c = '"'
  · subst h4
    rw [show escChar '"' = '&' :: 'q' :: "uot;".data from by decide] at hsuf
    rw [suffix_block_no_pfx (by decide) hd hsuf
      (fun X => entity_mismatch "mp;".data "uot;".data X (by decide)) (cmap escChar t1)] at hcon
    simp at hcon
  by_cases h5 : c = '\''
  · subst h5
    rw [show escChar '\'' = '&' :: 'a' :: "pos;".data from by decide] at hsuf
    have hfull : ∀ X, ('&' :: 'a' :: "mp;".data).isPrefixOf
        (('&' :: 'a' :: "pos;".data) ++ X) = false := by
      intro X
      have hm : ((['&', 'a'] ++ 'm' :: "p;".data).isPrefixOf
          ((['&', 'a'] ++ 'p' :: "os;".data) ++ X)) = false :=
        isPrefixOf_mismatch "p;".data "os;".data X (by decide)
      simpa using hm
    rw [suffix_block_no_pfx (by decide) hd hsuf hfull (cmap escChar t1)] at hcon
    simp at hcon
  have hesc : escChar c = [c] := by simp [escChar, h1, h2, h3, h4, h5]
  rw [hesc] at hsuf
  have hdc := suffix_singleton hd hsuf
  subst hdc
  rw [show ([c] : List Char) ++ cmap escChar t1 = c :: cmap escChar t1 by simp] at hcon
  rw [isPrefixOf_head_ne (fun hh => h1 hh.symm)] at hcon
  simp at hcon

theorem pass2_H (t : List Char) (hocc : occursSub "&lt;".data t = false) :
    ∀ (c : Char) (t1 : List Char), (c :: t1) <:+ t →
    escChar1 c ≠ "&lt;".data → ∀ d, d ≠ [] → d <:+ escChar1 c →
    ¬ ("&lt;".data.isPrefixOf (d ++ cmap escChar1 t1) = true) := by
  intro c t1 hsuf0 hfc d hd hsuf
  by_cases h2 : c = '<'
  · subst h2
    exact fun _ => hfc (by decide)
  by_cases h3 : c = '>'
  · subst h3
    intro hcon
    rw [show ("&lt;".data : List Char) = '&' :: 'l' :: "t;".data from by decide] at hcon
    rw [show escChar1 '>' = '&' :: 'g' :: "t;".data from by decide] at hsuf
    rw [suffix_block_no_pfx (by decide) hd hsuf
      (fun X => entity_mismatch "t;".data "t;".data X (by decide)) (cmap escChar1 t1)] at hcon
    simp at hcon
  by_cases h4 : c = '"'
  · subst h4
    intro hcon
    rw [show ("&lt;".data : List Char) = '&' :: 'l' :: "t;".data from by decide] at hcon
    rw [show escChar1 '"' = '&' :: 'q' :: "uot;".data from by decide] at hsuf
    rw [suffix_block_no_pfx (by decide) hd hsuf
      (fun X => entity_mismatch "t;".data "uot;".data X (by decide)) (cmap escChar1 t1)] at hcon
    simp at hcon
  by_cases h5 : c = '\''
  · subst h5
    intro hcon
    rw [show ("&lt;".data : List Char) = '&' :: 'l' :: "t;".data from by decide] at hcon
    rw [show escChar1 '\'' = '&' :: 'a' :: "pos;".data from by decide] at hsuf
    rw [suffix_block_no_pfx (by decide) hd hsuf
      (fun X => entity_mismatch "t;".data "pos;".data X (by decide)) (cmap escChar1 t1)] at hcon
    simp at hcon
  have hesc : escChar1 c = [c] := by simp [escChar1, h2, h3, h4, h5]
  rw [hesc] at hsuf
  have hdc := suffix_singleton hd hsuf
  subst hdc
  have hocc2 : occursSub ('&' :: 'l' :: "t;".data) t = false := by
    rw [show ('&' :: 'l' :: "t;".data) = "&lt;".data from by decide]
    exact hocc
  intro hcon
  rw [show ("&lt;".data : List Char) = '&' :: 'l' :: "t;".data from by decide] at hcon
  exact raw_char_H escChar1 escChar1_shape (by decide) hocc2 hsuf0 hcon

theorem pass3_H (t : List Char) (hocc : occursSub "&gt;".data t = false) :
    ∀ (c : Char) (t1 : List Char), (c :: t1) <:+ t →
    escChar2 c ≠ "&gt;".data → ∀ d, d ≠ [] → d <:+ escChar2 c →
    ¬ ("&gt;".data.isPrefixOf (d ++ cmap escChar2 t1) = true) := by
  intro c t1 hsuf0 hfc d hd hsuf
  by_cases h3 : c = '>'
  · subst h3
    exact fun _ => hfc (by decide)
  by_cases h4 : c = '"'
  · subst h4
    intro hcon
    rw [show ("&gt;".data : List Char) = '&' :: 'g' :: "t;".data from by decide] at hcon
    rw [show escChar2 '"' = '&' :: 'q' :: "uot;".data from by decide] at hsuf
    rw [suffix_block_no_pfx (by decide) hd hsuf
      (fun X => entity_mismatch "t;".data "uot;".data X (by decide)) (cmap escChar2 t1)] at hcon
    simp at hcon
  by_cases h5 : c = '\''
  · subst h5
    intro hcon
    rw [show ("&gt;".data : List Char) = '&' :: 'g' :: "t;".data from by decide] at hcon
    rw [show escChar2 '\'' = '&' :: 'a' :: "pos;".data from by decide] at hsuf
    rw [suffix_block_no_pfx (by decide) hd hsuf
      (fun X => entity_mismatch "t;".data "pos;".data X (by decide)) (cmap escChar2 t1)] at hcon
    simp at hcon
  have hesc : escChar2 c = [c] := by simp [escChar2, h3, h4, h5]
  rw [hesc] at hsuf
  have hdc := suffix_singleton hd hsuf
  subst hdc
  have hocc2 : occursSub ('&' :: 'g' :: "t;".data) t = false := by
    rw [show ('&' :: 'g' :: "t;".data) = "&gt;".data from by decide]
    exact hocc
  intro hcon
  rw [show ("&gt;".data : List Char) = '&' :: 'g' :: "t;".data from by decide] at hcon
  exact raw_char_H escChar2 escChar2_shape (by decide) hocc2 hsuf0 hcon

theorem pass4_H (t : List Char) (hocc : occursSub "&quot;".data t = false) :
    ∀ (c : Char) (t1 : List Char), (c :: t1) <:+ t →
    escChar3 c ≠ "&quot;".data → ∀ d, d ≠ [] → d <:+ escChar3 c →
    ¬ ("&quot;".data.isPrefixOf (d ++ cmap escChar3 t1) = true) := by
  intro c t1 hsuf0 hfc d hd hsuf
  by_cases h4 : c = '"'
  · subst h4
    exact fun _ => hfc (by decide)
  by_cases h5 : c = '\''
  · subst h5
    intro hcon
    rw [show ("&quot;".data : List Char) = '&' :: 'q' :: "uot;".data from by decide] at hcon
    rw [show escChar3 '\'' = '&' :: 'a' :: "pos;".data from by decide] at hsuf
    rw [suffix_block_no_pfx (by decide) hd hsuf
      (fun X => entity_mismatch "uot;".data "pos;".data X (by decide)) (cmap escChar3 t1)] at hcon
    simp at hcon
  have hesc : escChar3 c = [c] := by simp [escChar3, h4, h5]
  rw [hesc] at hsuf
  have hdc := suffix_singleton hd hsuf
  subst hdc
  have hocc2 : occursSub ('&' :: 'q' :: "uot;".data) t = false := by
    rw [show ('&' :: 'q' :: "uot;".data) = "&quot;".data from by decide]
    exact hocc
  intro hcon
  rw [show ("&quot;".data : List Char) = '&' :: 'q' :: "uot;".data from by decide] at hcon
  exact raw_char_H escChar3 escChar3_shape (by decide) hocc2 hsuf0 hcon

theorem pass5_H (t : List Char) (hocc : occursSub "&apos;".data t = false) :
    ∀ (c : Char) (t1 : List Char), (c :: t1) <:+ t →
    escChar4 c ≠ "&apos;".data → ∀ d, d ≠ [] → d <:+ escChar4 c →
    ¬ ("&apos;".data.isPrefixOf (d ++ cmap escChar4 t1) = true) := by
  intro c t1 hsuf0 hfc d hd hsuf
  by_cases h5 : c = '\''
  · subst h5
    exact fun _ => hfc (by decide)
  have hesc : escChar4 c = [c] := by simp [escChar4, h5]
  rw [hesc] at hsuf
  have hdc := suffix_singleton hd hsuf
  subst hdc
  have hocc2 : occursSub ('&' :: 'a' :: "pos;".data) t = false := by
    rw [show ('&' :: 'a' :: "pos;".data) = "&apos;".data from by decide]
    exact hocc
  intro hcon
  rw [show ("&apos;".data : List Char) = '&' :: 'a' :: "pos;".data from by decide] at hcon
  exact raw_char_H escChar4 escChar4_shape (by decide) hocc2 hsuf0 hcon

/-- The escape/unescape round trip on character lists, for texts that do
not already contain `&lt;`, `&gt;`, `&quot;` or `&apos;`. -/
theorem unescL_escL (t : List Char)
    (h2 : occursSub "&lt;".data t = false) (h3 : occursSub "&gt;".data t = false)
    (h4 : occursSub "&quot;".data t = false) (h5 : occursSub "&apos;".data t = false) :
    unescL (escL t) = t := by
  rw [escL_eq]
  unfold unescL
  rw [replaceAll_cmap "&amp;".data ['&'] escChar escChar1 (by decide) stage1_g t (pass1_H t)]
  rw [replaceAll_cmap "&lt;".data ['<'] escChar1 escChar2 (by decide) stage2_g t (pass2_H t h2)]
  rw [replaceAll_cmap "&gt;".data ['>'] escChar2 escChar3 (by decide) stage3_g t (pass3_H t h3)]
  rw [replaceAll_cmap "&quot;".data ['"'] escChar3 escChar4 (by decide) stage4_g t (pass4_H t h4)]
  rw [replaceAll_cmap "&apos;".data ['\''] escChar4 (fun c => [c]) (by decide)
    (fun c => stage5_g c) t (pass5_H t h5)]
  exact cmap_id t

/-- C4 as stated is false: `unescapeXml` undoes `&amp;` first, so a text
that already spells another entity is corrupted by the round trip. -/
theorem spec_c4_counterexample :
    unescapeXml (escapeXml "&lt;") ≠ "&lt;" ∧ unescapeXml (escapeXml "&lt;") = "<" := by
  constructor
  · decide
  · decide

/-- C4, amended.  The round trip `unescapeXml (escapeXml t) = t` holds
for every `t` that contains none of the substrings `&lt;`, `&gt;`,
`&quot;`, `&apos;` (in particular for any text whose `&`, `<`, `>`, `"`,
`'` characters do not spell those entities). -/
theorem spec_c4_amended (t : String)
    (h2 : occursSub "&lt;".data t.data = false)
    (h3 : occursSub "&gt;".data t.data = false)
    (h4 : occursSub "&quot;".data t.data = false)
    (h5 : occursSub "&apos;".data t.data = false) :
    unescapeXml (escapeXml t) = t := by
  show (⟨unescL (escL t.data)⟩ : String) = t
  rw [unescL_escL t.data h2 h3 h4 h5]

theorem spec_c4_witness :
    (occursSub "&lt;".data "a&b<c>d\"e'f".data = false ∧
     occursSub "&gt;".data "a&b<c>d\"e'f".data = false ∧
     occursSub "&quot;".data "a&b<c>d\"e'f".data = false ∧
     occursSub "&apos;".data "a&b<c>d\"e'f".data = false) ∧
    unescapeXml (escapeXml "a&b<c>d\"e'f") = "a&b<c>d\"e'f" :=
  ⟨⟨by decide, by decide, by decide, by decide⟩,
    spec_c4_amended "a&b<c>d\"e'f" (by decide) (by decide) (by decide) (by decide)⟩

end TranslateDocx
